import Mathlib

/-
Verification development for the Variable subsystem of a labeled
multi-dimensional array engine (scipp).

The embedding models the dense Variable layer of src/src/variable.cpp and
src/core/variable_operations.cpp: Dimensions (ordered label/extent pairs),
flat row-major storage, the semantic content of VariableConcept::copy,
the in-place arithmetic dispatch (VariableConceptT::apply), rebinning
(RebinHelper::rebinInner), and the sparse/dense fused arithmetic kernel
(apply_op_sparse_dense).

Memory layout convention: the Dimensions list is stored with the FIRST
label innermost (stride 1), as pinned by the VariableView tests in the
repository (a view of dims {{X,2},{Y,4}} over a buffer laid out for
{{X,3},{Y,4}} yields offsets 0,1,3,4,6,7,9,10, so X has stride 1 and Y has
stride 3).  A flat index is therefore a little-endian mixed-radix numeral
over the extent list.

Numeric element values are modelled as rationals; the closed element-kind
enumeration is carried separately as a tag, mirroring the type-erased
dispatch of the source (a tag mismatch is what makes the dynamic_cast in
VariableConceptT::apply fail).
-/

namespace Scipp

/-- Flat index of a multi-index, little-endian over the extent list:
the first axis has stride 1. -/
def flatten : List Nat → List Nat → Nat
  | e :: es, i :: is => i + e * flatten es is
  | _, _ => 0

/-- Digits of a flat index over the extent list (inverse of flatten). -/
def unflatten : List Nat → Nat → List Nat
  | [], _ => []
  | e :: es, n => n % e :: unflatten es (n / e)

theorem length_unflatten (es : List Nat) (n : Nat) :
    (unflatten es n).length = es.length := by
  induction es generalizing n with
  | nil => rfl
  | cons e es ih => simp [unflatten, ih]

theorem flatten_unflatten (es : List Nat) (n : Nat) (h : n < es.prod) :
    flatten es (unflatten es n) = n := by
  induction es generalizing n with
  | nil =>
    simp only [List.prod_nil, Nat.lt_one_iff] at h
    simp [h, unflatten, flatten]
  | cons e es ih =>
    simp only [List.prod_cons] at h
    have he : 0 < e := by
      rcases Nat.eq_zero_or_pos e with h0 | h0
      · subst h0; simp at h
      · exact h0
    have hdiv : n / e < es.prod := by
      rw [Nat.div_lt_iff_lt_mul he]
      exact lt_of_lt_of_le h (le_of_eq (Nat.mul_comm e es.prod))
    simp only [unflatten, flatten, ih (n / e) hdiv]
    exact Nat.mod_add_div n e

theorem unflatten_flatten (es is : List Nat)
    (h : List.Forall₂ (· < ·) is es) :
    unflatten es (flatten es is) = is := by
  induction h with
  | nil => rfl
  | @cons i e is es hie _ ih =>
    have he : 0 < e := Nat.lt_of_le_of_lt (Nat.zero_le i) hie
    simp only [flatten, unflatten]
    have h1 : (i + e * flatten es is) % e = i := by
      rw [Nat.add_mul_mod_self_left]
      exact Nat.mod_eq_of_lt hie
    have h2 : (i + e * flatten es is) / e = flatten es is := by
      rw [Nat.add_mul_div_left _ _ he, Nat.div_eq_of_lt hie, Nat.zero_add]
    rw [h1, h2, ih]

theorem flatten_lt (es is : List Nat) (h : List.Forall₂ (· < ·) is es) :
    flatten es is < es.prod := by
  induction h with
  | nil => simp [flatten]
  | @cons i e is es hie htl ih =>
    simp only [flatten, List.prod_cons]
    calc i + e * flatten es is < e + e * flatten es is := by
          exact Nat.add_lt_add_right hie _
      _ = e * (flatten es is + 1) := by ring
      _ ≤ e * es.prod := Nat.mul_le_mul_left e (Nat.succ_le_of_lt ih)

theorem forall₂_unflatten (es : List Nat) (n : Nat) (h : n < es.prod) :
    List.Forall₂ (· < ·) (unflatten es n) es := by
  induction es generalizing n with
  | nil => exact List.Forall₂.nil
  | cons e es ih =>
    simp only [List.prod_cons] at h
    have he : 0 < e := by
      rcases Nat.eq_zero_or_pos e with h0 | h0
      · subst h0; simp at h
      · exact h0
    have hdiv : n / e < es.prod := by
      rw [Nat.div_lt_iff_lt_mul he]
      exact lt_of_lt_of_le h (le_of_eq (Nat.mul_comm e es.prod))
    exact List.Forall₂.cons (Nat.mod_lt n he) (ih (n / e) hdiv)

/-- Dimension label: a value from a closed enumeration plus a sentinel
Invalid (src dimension labels are compared by identity). -/
inductive Dim where
  | X
  | Y
  | Z
  | Row
  | Invalid
deriving DecidableEq, Repr

/-- Extent of the first entry whose label is d, 0 when absent
(semantic content of Dimensions::size / operator[]). -/
def extListOf : List (Dim × Nat) → Dim → Nat
  | [], _ => 0
  | p :: rest, d => if p.1 = d then p.2 else extListOf rest d

/-- Position of the first entry whose label is d (length when absent),
mirroring an index lookup over the ordered label list. -/
def idxListOf : List (Dim × Nat) → Dim → Nat
  | [], _ => 0
  | p :: rest, d => if p.1 = d then 0 else idxListOf rest d + 1

/-- Dimensions: an ordered association of dimension labels to extents.
Modelled from the spec (the Dimensions class itself is not under src/):
an ordered list of (label, extent) pairs, each label appearing at most
once; the first entry is the innermost axis (stride 1), as fixed by the
VariableView tests in the repository.  Only the dense form is modelled. -/
structure Dimensions where
  dims : List (Dim × Nat)
deriving DecidableEq, Repr

namespace Dimensions

def labels (D : Dimensions) : List Dim := D.dims.map Prod.fst

def extents (D : Dimensions) : List Nat := D.dims.map Prod.snd

/-- Product of the dense extents. -/
def volume (D : Dimensions) : Nat := D.extents.prod

def extOf (D : Dimensions) (d : Dim) : Nat := extListOf D.dims d

def idxOf (D : Dimensions) (d : Dim) : Nat := idxListOf D.dims d

/-- Modelled from the spec: resize(label, n) replaces the extent stored
for the label. -/
def resize (D : Dimensions) (d : Dim) (n : Nat) : Dimensions :=
  ⟨D.dims.map (fun p => if p.1 = d then (p.1, n) else p)⟩

/-- Modelled from the spec: erase(label) removes the entry for the label. -/
def eraseDim (D : Dimensions) (d : Dim) : Dimensions :=
  ⟨D.dims.filter (fun p => p.1 != d)⟩

/-- Modelled from the spec: add(label, extent) appends a new entry; the
appended entry is the outermost axis (the list head being innermost). -/
def addDim (D : Dimensions) (d : Dim) (n : Nat) : Dimensions :=
  ⟨D.dims ++ [(d, n)]⟩

/-- Modelled from the spec: Dimensions::contains(other) for the broadcast
check, true when every labelled extent of the other occurs here. -/
def containsDims (D E : Dimensions) : Prop :=
  ∀ p ∈ E.dims, p.1 ∈ D.labels ∧ D.extOf p.1 = p.2

instance (D E : Dimensions) : Decidable (containsDims D E) := by
  unfold containsDims; infer_instance

/-- Modelled from the spec: Dimensions equality treats dimension lists
that are permutations of each other as equal. -/
def permEq (D E : Dimensions) : Prop := D.dims.Perm E.dims

instance (D E : Dimensions) : Decidable (permEq D E) := by
  unfold permEq; infer_instance

/-- Multi-index (as a function from labels) of the k-th element in the
row-major traversal of D. -/
def point (D : Dimensions) (k : Nat) : Dim → Nat :=
  fun l => (unflatten D.extents k).getD (D.idxOf l) 0

/-- Flat index of a labelled multi-index under the layout of D. -/
def flatP (D : Dimensions) (p : Dim → Nat) : Nat :=
  flatten D.extents (D.labels.map p)

/-- A labelled multi-index is valid for D when each component is below
the extent of its axis. -/
def validP (D : Dimensions) (p : Dim → Nat) : Prop :=
  ∀ l ∈ D.labels, p l < D.extOf l

end Dimensions

theorem head_not_mem_of_nodup (q : Dim × Nat) (rest : List (Dim × Nat))
    (hnd : ((q :: rest).map Prod.fst).Nodup) : q.1 ∉ rest.map Prod.fst := by
  simp only [List.map_cons, List.nodup_cons] at hnd
  exact hnd.1

theorem nodup_tail (q : Dim × Nat) (rest : List (Dim × Nat))
    (hnd : ((q :: rest).map Prod.fst).Nodup) : (rest.map Prod.fst).Nodup := by
  simp only [List.map_cons, List.nodup_cons] at hnd
  exact hnd.2

/-- Looking up each label of a list in a digit list by label position
reconstructs the digit list. -/
theorem map_getD_idx (l : List (Dim × Nat)) (hnd : (l.map Prod.fst).Nodup)
    (xs : List Nat) (hlen : xs.length = l.length) :
    (l.map Prod.fst).map (fun d => xs.getD (idxListOf l d) 0) = xs := by
  induction l generalizing xs with
  | nil =>
    cases xs with
    | nil => rfl
    | cons x xs => simp at hlen
  | cons q rest ih =>
    cases xs with
    | nil => simp at hlen
    | cons x xs =>
      have hlen2 : xs.length = rest.length := by simpa using hlen
      have hq : q.1 ∉ rest.map Prod.fst := head_not_mem_of_nodup q rest hnd
      simp only [List.map_cons, List.map_map]
      have hhead : (x :: xs).getD (idxListOf (q :: rest) q.1) 0 = x := by
        simp [idxListOf]
      have htail : rest.map
            ((fun d => (x :: xs).getD (idxListOf (q :: rest) d) 0) ∘ Prod.fst)
          = rest.map (fun p => xs.getD (idxListOf rest p.1) 0) := by
        apply List.map_congr_left
        intro p hp
        have hne : ¬ q.1 = p.1 := by
          intro hEq
          exact hq (hEq ▸ List.mem_map_of_mem Prod.fst hp)
        simp [idxListOf, hne]
      rw [hhead, htail]
      have h5 := ih (nodup_tail q rest hnd) xs hlen2
      rw [List.map_map] at h5
      exact congrArg (List.cons x) h5

/-- Looking up one label of a list in a mapped value list by label
position retrieves the value at that label. -/
theorem getD_map_idx (l : List (Dim × Nat)) (p : Dim → Nat) (d : Dim)
    (hd : d ∈ l.map Prod.fst) :
    ((l.map Prod.fst).map p).getD (idxListOf l d) 0 = p d := by
  induction l with
  | nil => simp at hd
  | cons q rest ih =>
    by_cases hqd : q.1 = d
    · simp [idxListOf, hqd]
    · have hd2 : d ∈ rest.map Prod.fst := by
        simp only [List.map_cons, List.mem_cons] at hd
        rcases hd with h1 | h1
        · exact absurd h1.symm hqd
        · exact h1
      simp only [List.map_cons, idxListOf, if_neg hqd, List.getD_cons_succ]
      exact ih hd2

/-- Componentwise bound of a digit list, read off at a label position. -/
theorem forall₂_getD_idx (l : List (Dim × Nat)) (xs : List Nat)
    (h : List.Forall₂ (· < ·) xs (l.map Prod.snd)) (d : Dim)
    (hd : d ∈ l.map Prod.fst) :
    xs.getD (idxListOf l d) 0 < extListOf l d := by
  induction l generalizing xs with
  | nil => simp at hd
  | cons q rest ih =>
    cases xs with
    | nil => simp only [List.map_cons] at h; cases h
    | cons x xs =>
      simp only [List.map_cons] at h
      rcases List.forall₂_cons.mp h with ⟨hx, hxs⟩
      by_cases hqd : q.1 = d
      · simpa [idxListOf, extListOf, hqd] using hx
      · have hd2 : d ∈ rest.map Prod.fst := by
          simp only [List.map_cons, List.mem_cons] at hd
          rcases hd with h1 | h1
          · exact absurd h1.symm hqd
          · exact h1
        simp only [idxListOf, extListOf, if_neg hqd, List.getD_cons_succ]
        exact ih xs hxs hd2

/-- Validity on all labels gives the componentwise bound of the mapped
digit list. -/
theorem validList_forall₂ (l : List (Dim × Nat))
    (hnd : (l.map Prod.fst).Nodup) (p : Dim → Nat)
    (h : ∀ d ∈ l.map Prod.fst, p d < extListOf l d) :
    List.Forall₂ (· < ·) ((l.map Prod.fst).map p) (l.map Prod.snd) := by
  induction l with
  | nil => exact List.Forall₂.nil
  | cons q rest ih =>
    have hq : q.1 ∉ rest.map Prod.fst := head_not_mem_of_nodup q rest hnd
    simp only [List.map_cons]
    refine List.forall₂_cons.mpr ⟨?_, ?_⟩
    · have := h q.1 (by simp)
      simpa [extListOf] using this
    · apply ih (nodup_tail q rest hnd)
      intro d hd
      have hne : ¬ q.1 = d := by
        intro hEq
        exact hq (hEq ▸ hd)
      have := h d (by simp [hd])
      simpa [extListOf, hne] using this

theorem forall₂_validList (l : List (Dim × Nat))
    (hnd : (l.map Prod.fst).Nodup) (p : Dim → Nat)
    (h : List.Forall₂ (· < ·) ((l.map Prod.fst).map p) (l.map Prod.snd)) :
    ∀ d ∈ l.map Prod.fst, p d < extListOf l d := by
  induction l with
  | nil => intro d hd; simp at hd
  | cons q rest ih =>
    have hq : q.1 ∉ rest.map Prod.fst := head_not_mem_of_nodup q rest hnd
    simp only [List.map_cons] at h
    rcases List.forall₂_cons.mp h with ⟨hx, hxs⟩
    intro d hd
    by_cases hqd : q.1 = d
    · simpa [extListOf, hqd] using (hqd ▸ hx)
    · have hd2 : d ∈ rest.map Prod.fst := by
        simp only [List.map_cons, List.mem_cons] at hd
        rcases hd with h1 | h1
        · exact absurd h1.symm hqd
        · exact h1
      simp only [extListOf, if_neg hqd]
      exact ih (nodup_tail q rest hnd) hxs d hd2

namespace Dimensions

theorem labels_eq (D : Dimensions) : D.labels = D.dims.map Prod.fst := rfl

theorem extents_eq (D : Dimensions) : D.extents = D.dims.map Prod.snd := rfl

theorem length_unflatten_dims (D : Dimensions) (k : Nat) :
    (unflatten D.extents k).length = D.dims.length := by
  rw [length_unflatten, extents_eq, List.length_map]

/-- The multi-index of the k-th traversal position reconstructs the digit
list of k when mapped over the label list. -/
theorem labels_map_point (D : Dimensions) (hnd : D.labels.Nodup) (k : Nat) :
    D.labels.map (D.point k) = unflatten D.extents k :=
  map_getD_idx D.dims hnd (unflatten D.extents k) (D.length_unflatten_dims k)

theorem validP_iff_forall₂ (D : Dimensions) (hnd : D.labels.Nodup)
    (p : Dim → Nat) :
    D.validP p ↔ List.Forall₂ (· < ·) (D.labels.map p) D.extents := by
  constructor
  · intro hv
    exact validList_forall₂ D.dims hnd p hv
  · intro hfa
    exact forall₂_validList D.dims hnd p hfa

theorem flatP_lt (D : Dimensions) (hnd : D.labels.Nodup) (p : Dim → Nat)
    (hv : D.validP p) : D.flatP p < D.volume :=
  flatten_lt _ _ ((D.validP_iff_forall₂ hnd p).mp hv)

theorem point_flatP (D : Dimensions) (hnd : D.labels.Nodup) (p : Dim → Nat)
    (hv : D.validP p) (l : Dim) (hl : l ∈ D.labels) :
    D.point (D.flatP p) l = p l := by
  have hroundtrip : unflatten D.extents (D.flatP p) = D.labels.map p :=
    unflatten_flatten _ _ ((D.validP_iff_forall₂ hnd p).mp hv)
  show (unflatten D.extents (D.flatP p)).getD (D.idxOf l) 0 = p l
  rw [hroundtrip]
  exact getD_map_idx D.dims p l hl

theorem validP_point (D : Dimensions) (k : Nat)
    (hk : k < D.volume) : D.validP (D.point k) := by
  intro l hl
  exact forall₂_getD_idx D.dims (unflatten D.extents k)
    (forall₂_unflatten D.extents k hk) l hl

theorem flatP_point (D : Dimensions) (hnd : D.labels.Nodup) (k : Nat)
    (hk : k < D.volume) : D.flatP (D.point k) = k := by
  rw [flatP, labels_map_point D hnd k, flatten_unflatten _ _ hk]

theorem flatP_congr (D : Dimensions) (p q : Dim → Nat)
    (h : ∀ l ∈ D.labels, p l = q l) : D.flatP p = D.flatP q := by
  unfold flatP
  congr 1
  exact List.map_congr_left h

theorem point_inj (D : Dimensions) (hnd : D.labels.Nodup) (p q : Dim → Nat)
    (hp : D.validP p) (hq : D.validP q) (h : D.flatP p = D.flatP q) :
    ∀ l ∈ D.labels, p l = q l := by
  intro l hl
  have h1 := D.point_flatP hnd p hp l hl
  have h2 := D.point_flatP hnd q hq l hl
  rw [← h1, ← h2, h]

end Dimensions

namespace Dimensions

theorem labels_resize (D : Dimensions) (d : Dim) (n : Nat) :
    (D.resize d n).labels = D.labels := by
  show (D.dims.map fun p => if p.1 = d then (p.1, n) else p).map Prod.fst
      = D.dims.map Prod.fst
  rw [List.map_map]
  apply List.map_congr_left
  intro p _
  by_cases hp : p.1 = d <;> simp [hp]

theorem extOf_resize_self (D : Dimensions) (d : Dim) (n : Nat)
    (h : d ∈ D.labels) : (D.resize d n).extOf d = n := by
  rcases D with ⟨l⟩
  show extListOf (l.map fun p => if p.1 = d then (p.1, n) else p) d = n
  induction l with
  | nil => simp [labels] at h
  | cons q rest ih =>
    by_cases hq : q.1 = d
    · simp [extListOf, hq]
    · have h2 : d ∈ (Dimensions.mk rest).labels := by
        simp only [labels, List.map_cons, List.mem_cons] at h
        rcases h with h1 | h1
        · exact absurd h1.symm hq
        · simpa [labels] using h1
      simp only [List.map_cons, if_neg hq, extListOf, hq, if_false]
      exact ih h2

theorem extOf_resize_ne (D : Dimensions) (d : Dim) (n : Nat) (l : Dim)
    (h : ¬ l = d) : (D.resize d n).extOf l = D.extOf l := by
  rcases D with ⟨xs⟩
  show extListOf (xs.map fun p => if p.1 = d then (p.1, n) else p) l
      = extListOf xs l
  induction xs with
  | nil => rfl
  | cons q rest ih =>
    have hdl : ¬ d = l := by
      intro hEq
      exact h hEq.symm
    by_cases hq : q.1 = d
    · simp [extListOf, hq, hdl, ih]
    · by_cases hql : q.1 = l
      · simp [extListOf, hq, hql, h]
      · simp [extListOf, hq, hql, ih]

theorem map_resize_eq_self (l : List (Dim × Nat)) (d : Dim) (e : Nat)
    (hnd : (l.map Prod.fst).Nodup) (he : extListOf l d = e) :
    l.map (fun p => if p.1 = d then (p.1, e) else p) = l := by
  induction l with
  | nil => rfl
  | cons q rest ih =>
    obtain ⟨q1, q2⟩ := q
    have hq : q1 ∉ rest.map Prod.fst := head_not_mem_of_nodup (q1, q2) rest hnd
    by_cases hqd : q1 = d
    · have hhead : (if (q1, q2).1 = d then ((q1, q2).1, e) else (q1, q2))
          = (q1, q2) := by
        have he2 : e = q2 := by
          rw [← he]
          simp [extListOf, hqd]
        simp only [if_pos hqd, he2]
      have hrest : ∀ p ∈ rest,
          (if p.1 = d then (p.1, e) else p) = p := by
        intro p hp
        have hne : ¬ p.1 = d := by
          intro hEq
          exact hq (hqd ▸ hEq ▸ List.mem_map_of_mem Prod.fst hp)
        simp [hne]
      simp only [List.map_cons, hhead]
      rw [List.map_congr_left hrest]
      simp
    · have he2 : extListOf rest d = e := by
        rw [← he]
        simp [extListOf, hqd]
      simp only [List.map_cons, if_neg hqd]
      rw [ih (nodup_tail (q1, q2) rest hnd) he2]

theorem resize_extOf_self (D : Dimensions) (d : Dim)
    (hnd : D.labels.Nodup) : D.resize d (D.extOf d) = D := by
  rcases D with ⟨l⟩
  have h := map_resize_eq_self l d (extListOf l d) hnd rfl
  show Dimensions.mk (l.map fun p => if p.1 = d then (p.1, extListOf l d)
      else p) = Dimensions.mk l
  rw [h]

theorem volume_resize_zero (D : Dimensions) (d : Dim)
    (h : d ∈ D.labels) : (D.resize d 0).volume = 0 := by
  apply List.prod_eq_zero
  rcases List.mem_map.mp h with ⟨q, hq, hq2⟩
  show (0 : Nat) ∈ ((D.dims.map fun p => if p.1 = d then (p.1, 0)
      else p).map Prod.snd)
  apply List.mem_map.mpr
  exact ⟨(d, 0), List.mem_map.mpr ⟨q, hq, by simp [hq2]⟩, rfl⟩

theorem labels_erase (D : Dimensions) (d : Dim) :
    (D.eraseDim d).labels = D.labels.filter (fun l => l != d) := by
  rcases D with ⟨l⟩
  show (l.filter fun p => p.1 != d).map Prod.fst
      = (l.map Prod.fst).filter (fun x => x != d)
  induction l with
  | nil => rfl
  | cons q rest ih =>
    by_cases hq : q.1 = d
    · simp [List.filter, hq, ih]
    · simp only [List.filter, List.map_cons]
      rw [show (q.1 != d) = true by simpa using hq]
      simp only [List.map_cons, ih]

theorem mem_labels_erase (D : Dimensions) (d l : Dim) :
    l ∈ (D.eraseDim d).labels ↔ l ∈ D.labels ∧ ¬ l = d := by
  rw [labels_erase, List.mem_filter]
  constructor
  · rintro ⟨h1, h2⟩
    exact ⟨h1, by simpa using h2⟩
  · rintro ⟨h1, h2⟩
    exact ⟨h1, by simpa using h2⟩

theorem nodup_labels_erase (D : Dimensions) (d : Dim)
    (hnd : D.labels.Nodup) : (D.eraseDim d).labels.Nodup := by
  rw [labels_erase]
  exact hnd.filter _

theorem extOf_erase_ne (D : Dimensions) (d l : Dim) (h : ¬ l = d) :
    (D.eraseDim d).extOf l = D.extOf l := by
  rcases D with ⟨xs⟩
  show extListOf (xs.filter fun p => p.1 != d) l = extListOf xs l
  induction xs with
  | nil => rfl
  | cons q rest ih =>
    have hdl : ¬ d = l := by
      intro hEq
      exact h hEq.symm
    by_cases hq : q.1 = d
    · simp [List.filter, hq, extListOf, hdl, ih]
    · simp only [List.filter]
      rw [show (q.1 != d) = true by simpa using hq]
      by_cases hql : q.1 = l
      · simp [extListOf, hql]
      · simp [extListOf, hql, ih]

theorem labels_add (D : Dimensions) (d : Dim) (n : Nat) :
    (D.addDim d n).labels = D.labels ++ [d] := by
  show (D.dims ++ [(d, n)]).map Prod.fst = D.dims.map Prod.fst ++ [d]
  simp

theorem extListOf_append_self (xs : List (Dim × Nat)) (d : Dim) (n : Nat)
    (h : d ∉ xs.map Prod.fst) : extListOf (xs ++ [(d, n)]) d = n := by
  induction xs with
  | nil => simp [extListOf]
  | cons q rest ih =>
    have hq : ¬ q.1 = d := by
      intro hEq
      apply h
      simp [hEq]
    have h2 : d ∉ rest.map Prod.fst := by
      intro hmem
      apply h
      simp [hmem]
    simp only [List.cons_append, extListOf, hq, if_false]
    exact ih h2

theorem extOf_add_self (D : Dimensions) (d : Dim) (n : Nat)
    (h : d ∉ D.labels) : (D.addDim d n).extOf d = n :=
  extListOf_append_self D.dims d n h

theorem extOf_add_ne (D : Dimensions) (d : Dim) (n : Nat) (l : Dim)
    (h : ¬ l = d) : (D.addDim d n).extOf l = D.extOf l := by
  rcases D with ⟨xs⟩
  show extListOf (xs ++ [(d, n)]) l = extListOf xs l
  induction xs with
  | nil =>
    have hdl : ¬ d = l := by
      intro hEq
      exact h hEq.symm
    simp [extListOf, hdl]
  | cons q rest ih =>
    by_cases hq : q.1 = l
    · simp [extListOf, hq]
    · simp [extListOf, hq, ih]

theorem nodup_labels_add (D : Dimensions) (d : Dim) (n : Nat)
    (hnd : D.labels.Nodup) (h : d ∉ D.labels) :
    (D.addDim d n).labels.Nodup := by
  rw [labels_add]
  simp only [List.nodup_append, List.nodup_cons]
  refine ⟨hnd, by simp, ?_⟩
  intro a ha hb
  simp only [List.mem_singleton] at hb
  exact h (hb ▸ ha)

end Dimensions

/-- Element-kind tag: the closed enumeration of dense element kinds used
by the type-erased storage dispatch.  The sparse container and nested
Dataset kinds are outside the dense model (the Data::Events / Data::Table
branches of the arithmetic operators concatenate nested Datasets and are
not modelled here). -/
inductive Tag where
  | doubleT
  | floatT
  | int32T
  | int64T
  | stringT
deriving DecidableEq, Repr

/-- Element kinds that admit arithmetic; the string kind has every
ArithmeticHelper specialization disabled in the source. -/
def Tag.isArith : Tag → Bool
  | .stringT => false
  | _ => true

/-- Unit token from the external unit library: modelled as exponents over
two base units, providing the assumed equality and multiplication. -/
structure UnitId where
  a : Int
  b : Int
deriving DecidableEq, Repr

def UnitId.mul (u v : UnitId) : UnitId := ⟨u.a + v.a, u.b + v.b⟩

/-- Error taxonomy: one constructor per distinct throw site reached by
the modelled operations. -/
inductive Err where
  | typesDoNotMatch
  | notArithmetic
  | addUnits
  | addDims
  | subUnits
  | subDims
  | timesDims
  | concatTypes
  | concatUnits
  | concatNames
  | concatDims
  | concatExtents
  | concatRank
  | sliceOutOfRange
  | nonLinspaceEdges
deriving DecidableEq, Repr

/-- Dense Variable: unit, name, dimensions and a flat row-major data
buffer, plus the element-kind tag of the type-erased storage.  Numeric
values of every dense kind are embedded into the rationals. -/
structure Variable where
  tag : Tag
  unit : UnitId
  name : String
  dims : Dimensions
  data : List ℚ
deriving DecidableEq, Repr

/-- Element of a Variable at a labelled multi-index. -/
def Variable.atP (v : Variable) (p : Dim → Nat) : ℚ :=
  v.data.getD (v.dims.flatP p) 0

theorem Variable.atP_congr (v : Variable) (p q : Dim → Nat)
    (h : ∀ l ∈ v.dims.labels, p l = q l) : v.atP p = v.atP q := by
  unfold atP
  rw [Dimensions.flatP_congr _ p q h]

theorem getD_map_range (V : Nat) (f : Nat → ℚ) (k : Nat) (hk : k < V) :
    ((List.range V).map f).getD k 0 = f k := by
  rw [List.getD_eq_getElem _ _ (by simpa using hk)]
  simp

/-- Semantic model of VariableConcept::copy(other, dim, offset,
otherBegin, otherEnd): each traversal position of self whose component
along dim lies in the written block receives the corresponding element of
other (shifted by otherBegin - offset along dim); all other positions
keep the previous value.  When self does not carry dim the call copies
the whole of other broadcast onto self (the Dim::Invalid form used by
assignment). -/
def copyDim (self other : Variable) (d : Dim) (offset ob oe : Nat) :
    List ℚ :=
  (List.range self.dims.volume).map (fun k =>
    let p := self.dims.point k
    if d ∈ self.dims.labels then
      if offset ≤ p d ∧ p d < offset + (oe - ob) then
        other.atP (fun l => if l = d then p d - offset + ob else p l)
      else self.data.getD k 0
    else other.atP p)

/-- Evaluation of copyDim at a valid labelled multi-index. -/
theorem copyDim_at (self other : Variable) (d : Dim) (offset ob oe : Nat)
    (hnd : self.dims.labels.Nodup)
    (hsub : ∀ l ∈ other.dims.labels, l ∈ self.dims.labels)
    (p : Dim → Nat) (hv : self.dims.validP p) :
    (copyDim self other d offset ob oe).getD (self.dims.flatP p) 0 =
      if d ∈ self.dims.labels then
        (if offset ≤ p d ∧ p d < offset + (oe - ob) then
          other.atP (fun l => if l = d then p d - offset + ob else p l)
        else self.data.getD (self.dims.flatP p) 0)
      else other.atP p := by
  have hk : self.dims.flatP p < self.dims.volume :=
    self.dims.flatP_lt hnd p hv
  unfold copyDim
  rw [getD_map_range _ _ _ hk]
  have hpt : ∀ l ∈ self.dims.labels,
      self.dims.point (self.dims.flatP p) l = p l :=
    self.dims.point_flatP hnd p hv
  by_cases hd : d ∈ self.dims.labels
  · simp only [if_pos hd]
    rw [hpt d hd]
    by_cases hcond : offset ≤ p d ∧ p d < offset + (oe - ob)
    · simp only [if_pos hcond]
      apply other.atP_congr
      intro l hl
      have hl2 : l ∈ self.dims.labels := hsub l hl
      by_cases hld : l = d
      · simp [hld]
      · simp only [if_neg hld]
        exact hpt l hl2
    · simp only [if_neg hcond]
  · simp only [if_neg hd]
    apply other.atP_congr
    intro l hl
    exact hpt l (hsub l hl)

/-- Elementwise in-place dispatch, VariableConceptT::apply of
src/src/variable.cpp.  The dynamic_cast failure on mismatching underlying
element types comes first; a disabled ArithmeticHelper (string kind)
raises before any element is written; otherwise, when the LHS dimensions
contain the RHS dimensions the RHS is broadcast (or transposed) to the
LHS traversal order, and when they do not, the LHS is viewed at the RHS
dimensions and written through sequentially, accumulating repeated cells
(the reduction shape used by sum). -/
def applyOp (op : ℚ → ℚ → ℚ) (v o : Variable) : Except Err (List ℚ) :=
  if v.tag ≠ o.tag then .error Err.typesDoNotMatch
  else if v.tag.isArith then
    (if v.dims.containsDims o.dims then
      .ok ((List.range v.dims.volume).map (fun k =>
        op (v.data.getD k 0) (o.atP (v.dims.point k))))
    else
      .ok ((List.range o.dims.volume).foldl (fun acc k =>
        acc.set (v.dims.flatP (o.dims.point k))
          (op (acc.getD (v.dims.flatP (o.dims.point k)) 0)
            (o.data.getD k 0))) v.data))
  else .error Err.notArithmetic

/-- In-place addition, plus_equals of src/src/variable.cpp: unit check,
then dimension containment check, then the data op (whose dynamic_cast
raises on element-kind mismatch).  Returns the final state of the LHS
together with the raised error, if any.  The Data::Events / Data::Table
branch (concatenation of nested Datasets) is outside this dense model. -/
def plus_equals (v o : Variable) : Variable × Option Err :=
  if v.unit ≠ o.unit then (v, some Err.addUnits)
  else if v.dims.containsDims o.dims then
    match applyOp (fun a b => a + b) v o with
    | .ok dta => ({ v with data := dta }, none)
    | .error e => (v, some e)
  else (v, some Err.addDims)

/-- In-place subtraction, minus_equals of src/src/variable.cpp (the
events-list throw is outside the dense tag set). -/
def minus_equals (v o : Variable) : Variable × Option Err :=
  if v.unit ≠ o.unit then (v, some Err.subUnits)
  else if v.dims.containsDims o.dims then
    match applyOp (fun a b => a - b) v o with
    | .ok dta => ({ v with data := dta }, none)
    | .error e => (v, some e)
  else (v, some Err.subDims)

/-- In-place multiplication, times_equals of src/src/variable.cpp: the
dimension check comes first, then setUnit writes the product unit, and
only then does the data op run, so an element-kind mismatch is raised
after the unit write. -/
def times_equals (v o : Variable) : Variable × Option Err :=
  if ¬ v.dims.containsDims o.dims then (v, some Err.timesDims)
  else
    match applyOp (fun a b => a * b) { v with unit := v.unit.mul o.unit } o with
    | .ok dta => ({ v with unit := v.unit.mul o.unit, data := dta }, none)
    | .error e => ({ v with unit := v.unit.mul o.unit }, some e)

/-- Materializing range slice, slice(var, dim, begin, end) of
src/src/variable.cpp: resize the dimension to end - begin; when the
resized Dimensions coincide with the original the copy is returned as is,
otherwise setDimensions reallocates (default-initialized) and the block
[begin, end) is copied in. -/
def sliceInit (v : Variable) (d : Dim) (b e : Nat) : Variable :=
  { v with
    dims := v.dims.resize d (e - b)
    data := List.replicate (v.dims.resize d (e - b)).volume 0 }

def sliceRange (v : Variable) (d : Dim) (b e : Nat) : Variable :=
  if v.dims.resize d (e - b) = v.dims then v
  else
    { sliceInit v d b e with
      data := copyDim (sliceInit v d b e) v d 0 b e }

/-- Check of concatenate: every dense axis of dims1 other than dim must
be present in dims2. -/
def concatDimsOk (dims1 dims2 : Dimensions) (d : Dim) : Prop :=
  ∀ l ∈ dims1.labels, ¬ l = d → l ∈ dims2.labels

instance (dims1 dims2 : Dimensions) (d : Dim) :
    Decidable (concatDimsOk dims1 dims2 d) := by
  unfold concatDimsOk; infer_instance

/-- Check of concatenate: matching extents on every axis other than dim. -/
def concatExtentsOk (dims1 dims2 : Dimensions) (d : Dim) : Prop :=
  ∀ l ∈ dims1.labels, ¬ l = d → dims2.extOf l = dims1.extOf l

instance (dims1 dims2 : Dimensions) (d : Dim) :
    Decidable (concatExtentsOk dims1 dims2 d) := by
  unfold concatExtentsOk; infer_instance

/-- Rank of a Dimensions with dim discounted, the size1 / size2 counters
of concatenate. -/
def rankWithout (D : Dimensions) (d : Dim) : Nat :=
  D.dims.length - (if d ∈ D.labels then 1 else 0)

/-- The extent1 / extent2 counters of concatenate: the extent along dim,
or 1 when dim is absent. -/
def concatExtent (D : Dimensions) (d : Dim) : Nat :=
  if d ∈ D.labels then D.extOf d else 1

/-- Result Dimensions of concatenate: dim resized (or appended) to
extent1 + extent2. -/
def concatResultDims (D1 D2 : Dimensions) (d : Dim) : Dimensions :=
  if d ∈ D1.labels then D1.resize d (concatExtent D1 d + concatExtent D2 d)
  else D1.addDim d (concatExtent D1 d + concatExtent D2 d)

/-- Output of concatenate after setDimensions: a copy of a1 whose
Dimensions were changed, which reallocates to a default-initialized
buffer whenever the Dimensions differ. -/
def concatInit (a1 a2 : Variable) (d : Dim) : Variable :=
  { a1 with
    dims := concatResultDims a1.dims a2.dims d
    data := if concatResultDims a1.dims a2.dims d = a1.dims then a1.data
      else List.replicate (concatResultDims a1.dims a2.dims d).volume 0 }

/-- Output of concatenate after the first copy (a1 into the [0, extent1)
block of dim). -/
def concatFirst (a1 a2 : Variable) (d : Dim) : Variable :=
  { concatInit a1 a2 d with
    data := copyDim (concatInit a1 a2 d) a1 d 0 0 (concatExtent a1.dims d) }

/-- Output of concatenate after the second copy (a2 into the
[extent1, extent1 + extent2) block of dim). -/
def concatOut (a1 a2 : Variable) (d : Dim) : Variable :=
  { concatFirst a1 a2 d with
    data := copyDim (concatFirst a1 a2 d) a2 d (concatExtent a1.dims d) 0
      (concatExtent a2.dims d) }

/-- concatenate(a1, a2, dim) of src/src/variable.cpp (dense path): checks
element kind, unit, name, presence and extents of all other axes, and
equal discounted rank; then the result Dimensions get dim resized (or
appended) to extent1 + extent2, the output is reallocated
(default-initialized) by setDimensions, a1 is copied into the [0, extent1)
block of dim and a2 into the [extent1, extent1 + extent2) block.  The
source interleaves the presence and extent checks in one loop over the
axes; they are sequenced here, which only reorders which error is raised
when both fail. -/
def concatenate (a1 a2 : Variable) (d : Dim) : Except Err Variable :=
  if a1.tag ≠ a2.tag then .error Err.concatTypes
  else if a1.unit ≠ a2.unit then .error Err.concatUnits
  else if a1.name ≠ a2.name then .error Err.concatNames
  else if ¬ concatDimsOk a1.dims a2.dims d then .error Err.concatDims
  else if ¬ concatExtentsOk a1.dims a2.dims d then .error Err.concatExtents
  else if rankWithout a1.dims d ≠ rankWithout a2.dims d then
    .error Err.concatRank
  else .ok (concatOut a1 a2 d)

/-- split(var, dim, indices) of src/src/variable.cpp: empty indices give
the singleton list; otherwise the pieces are the slices at consecutive
boundaries 0, indices..., extent. -/
def split (v : Variable) (d : Dim) (idx : List Nat) : List Variable :=
  match idx with
  | [] => [v]
  | i0 :: rest =>
    sliceRange v d 0 i0 ::
      ((List.range rest.length).map (fun i =>
        sliceRange v d ((i0 :: rest).getD i 0) ((i0 :: rest).getD (i + 1) 0))
       ++ [sliceRange v d ((i0 :: rest).getLastD 0) (v.dims.extOf d)])

/-- Left fold of concatenate over a list of pieces, as used to rebuild a
Variable from its split. -/
def concatList (d : Dim) : List Variable → Except Err Variable
  | [] => .error Err.concatRank
  | v :: rest => rest.foldlM (fun acc x => concatenate acc x d) v

/-- The pieces of a split between consecutive boundaries, written
recursively on the boundary list: from cursor c, the slice [c, j) for
each listed boundary j, then the final slice [last, extent).  Proved
equal to the tail of split below. -/
def chops (v : Variable) (d : Dim) : Nat → List Nat → List Variable
  | c, [] => [sliceRange v d c (v.dims.extOf d)]
  | c, j :: rest => sliceRange v d c j :: chops v d j rest

/-- permute(var, dim, indices) of src/src/variable.cpp: the result starts
as a copy of var, then position i along dim receives the single-element
slice of var at indices i, for each i below the length of indices. -/
def permute (v : Variable) (d : Dim) (indices : List Nat) : Variable :=
  { v with
    data := (List.range indices.length).foldl (fun dta i =>
      copyDim { v with data := dta } v d i (indices.getD i 0)
        (indices.getD i 0 + 1)) v.data }

/-- The output of sum after setDimensions: dims with dim erased, with a
reallocated default-initialized buffer whenever the Dimensions change. -/
def sumInit (v : Variable) (d : Dim) : Variable :=
  { v with
    dims := v.dims.eraseDim d
    data := if v.dims.eraseDim d = v.dims then v.data
      else List.replicate (v.dims.eraseDim d).volume 0 }

/-- sum(var, dim) of src/src/variable.cpp: dims with dim erased;
setDimensions reallocates to a zero buffer whenever the Dimensions
change; then the accumulation-shaped in-place add runs. -/
def sum (v : Variable) (d : Dim) : Except Err Variable :=
  match applyOp (fun a b => a + b) (sumInit v d) v with
  | .ok dta => .ok { sumInit v d with data := dta }
  | .error e => .error e

/-- The merge sweep of RebinHelper::rebinInner for one row: while both
cursors are in range, advance the output bin when it ends before the
input bin starts, advance the input bin when it ends before the output
bin starts, and otherwise accumulate old * overlap / width into the
current output bin and advance whichever bin ends first.  The fuel
argument bounds the iteration count (every step advances one cursor, so
oldSize + newSize suffices). -/
def rebinSweep (xold xnew oldData : List ℚ) :
    Nat → Nat → Nat → List ℚ → List ℚ
  | 0, _, _, acc => acc
  | fuel + 1, iold, inew, acc =>
    if iold < oldData.length ∧ inew < acc.length then
      let xo_low := xold.getD iold 0
      let xo_high := xold.getD (iold + 1) 0
      let xn_low := xnew.getD inew 0
      let xn_high := xnew.getD (inew + 1) 0
      if xn_high ≤ xo_low then
        rebinSweep xold xnew oldData fuel iold (inew + 1) acc
      else if xo_high ≤ xn_low then
        rebinSweep xold xnew oldData fuel (iold + 1) inew acc
      else
        let delta := min xo_high xn_high - max xo_low xn_low
        let owidth := xo_high - xo_low
        let acc2 := acc.set inew
          (acc.getD inew 0 + oldData.getD iold 0 * delta / owidth)
        if xo_high < xn_high then
          rebinSweep xold xnew oldData fuel (iold + 1) inew acc2
        else rebinSweep xold xnew oldData fuel iold (inew + 1) acc2
    else acc

/-- rebin(var, oldCoord, newCoord) of src/src/variable.cpp for a
one-dimensional Variable (the count = 1 instance of the parallel row loop
of rebinInner; rows are independent and identical in form).  The result
dimensions get dim resized to newCoord size - 1; setDimensions
reallocates to a zero buffer ONLY when the resized Dimensions differ,
i.e. only when the new bin count differs from the old one; then the sweep
accumulates into that buffer. -/
def rebin1D (oldData oldCoord newCoord : List ℚ) : List ℚ :=
  let newSize := newCoord.length - 1
  let init := if newSize = oldData.length then oldData
    else List.replicate newSize 0
  rebinSweep oldCoord newCoord oldData (oldData.length + newSize) 0 0 init

/-- Modelled from the spec (scipp::numeric::is_linspace is not under
src/): edges are uniformly spaced with positive step, front below back,
at least two entries. -/
def is_linspace (edges : List ℚ) : Bool :=
  decide (2 ≤ edges.length) &&
  decide (edges.getD 0 0 < edges.getD (edges.length - 1) 0) &&
  ((List.range (edges.length - 1)).all (fun i =>
    decide (edges.getD (i + 1) 0 - edges.getD i 0 =
      (edges.getD (edges.length - 1) 0 - edges.getD 0 0)
        / ((edges.length : ℚ) - 1))))

/-- Modelled from the spec, section 4.7 (linear_edge_params is not under
src/): offset = edges[0], nbin = K, scale = K / (edges[K] - edges[0]). -/
def linear_edge_params (edges : List ℚ) : ℚ × Nat × ℚ :=
  let K := edges.length - 1
  (edges.getD 0 0, K,
    (K : ℚ) / (edges.getD K 0 - edges.getD 0 0))

/-- apply_op_sparse_dense of the sparse/dense fused kernel (no-variance
variant) for one sparse row: with uniformly spaced edges, each event of
implicit weight 1 is pushed through op against the weight of the bin its
coordinate falls into (0 when the scaled coordinate is outside [0, nbin));
non-uniform edges are a hard error. -/
def apply_op_sparse_dense (op : ℚ → ℚ → ℚ)
    (coord edges weights : List ℚ) : Except Err (List ℚ) :=
  if is_linspace edges then
    let par := linear_edge_params edges
    let offset := par.1
    let nbin := par.2.1
    let scale := par.2.2
    .ok (coord.foldl (fun out_vals c =>
      let event_weight : ℚ := 1
      let bin := (c - offset) * scale
      out_vals ++ [op event_weight
        (if 0 ≤ bin ∧ bin < (nbin : ℚ) then
          weights.getD (Int.toNat ⌊bin⌋) 0 else 0)]) [])
  else .error Err.nonLinspaceEdges

/-- Slice descriptor: dim, begin, end as signed indices (end = -1 selects
a single index and drops the dimension). -/
structure Slice where
  dim : Dim
  begin_ : Int
  end_ : Int
deriving DecidableEq, Repr

/-- expect::validSlice of src/core (parallel-fallback.h block): rejects a
slice whose dim is absent, whose begin is negative, whose begin is not
below min(end + 1, extent) (min(extent, extent) when end is negative), or
whose end exceeds the extent. -/
def validSlice (dims : Dimensions) (s : Slice) : Except Err Unit :=
  if (¬ s.dim ∈ dims.labels) ∨ s.begin_ < 0 ∨
      s.begin_ ≥ min (if 0 ≤ s.end_ then s.end_ + 1
        else (dims.extOf s.dim : Int)) ((dims.extOf s.dim : Int)) ∨
      s.end_ > (dims.extOf s.dim : Int)
  then .error Err.sliceOutOfRange else .ok ()

/-- Traversal of a Variable in the iteration order of the target
Dimensions (the strided view used by the equality comparison). -/
def iterAt (v : Variable) (T : Dimensions) : List ℚ :=
  (List.range T.volume).map (fun k => v.atP (T.point k))

/-- VariableConceptT::operator== of src/src/variable.cpp: the Dimensions
must agree (as values, i.e. up to permutation in this model); when the
dimension lists coincide the contiguous spans are compared directly,
otherwise the right-hand side is walked through a strided view in the
left-hand iteration order. -/
def conceptEq (v o : Variable) : Prop :=
  v.dims.permEq o.dims ∧
    (if v.dims = o.dims then v.data = o.data else v.data = iterAt o v.dims)

/-- Variable::operator== of src/src/variable.cpp: name, unit and tag must
agree, then the storage is compared deeply. -/
def variableEq (v o : Variable) : Prop :=
  v.name = o.name ∧ v.unit = o.unit ∧ v.tag = o.tag ∧ conceptEq v o

instance (v o : Variable) : Decidable (conceptEq v o) :=
  if h : v.dims = o.dims then
    decidable_of_iff (v.dims.permEq o.dims ∧ v.data = o.data)
      (by unfold conceptEq; rw [if_pos h])
  else
    decidable_of_iff (v.dims.permEq o.dims ∧ v.data = iterAt o v.dims)
      (by unfold conceptEq; rw [if_neg h])

instance (v o : Variable) : Decidable (variableEq v o) := by
  unfold variableEq; infer_instance

theorem foldl_push_eq_map (f : ℚ → ℚ) (l : List ℚ) (init : List ℚ) :
    l.foldl (fun acc c => acc ++ [f c]) init = init ++ l.map f := by
  induction l generalizing init with
  | nil => simp
  | cons c rest ih =>
    simp only [List.foldl_cons, List.map_cons]
    rw [ih]
    simp

/-- Traversing a Variable in its own iteration order gives back the flat
buffer. -/
theorem iterAt_self (v : Variable) (hnd : v.dims.labels.Nodup)
    (hlen : v.data.length = v.dims.volume) : iterAt v v.dims = v.data := by
  apply List.ext_getElem
  · simp [iterAt, hlen]
  · intro k h1 h2
    have hk : k < v.dims.volume := by simpa [iterAt] using h1
    simp only [iterAt, List.getElem_map, List.getElem_range]
    show v.atP (v.dims.point k) = _
    rw [Variable.atP, Dimensions.flatP_point _ hnd k hk,
      List.getD_eq_getElem _ _ (by rw [hlen]; exact hk)]

set_option maxHeartbeats 1000000 in
/-- C1: the two in-particular rebin scenarios of the claim hold (partial
overlap [0,2] to [0,1,2] halves the bin; merging [0,1,2,3,4] to [0,2,4]
pairs the bins), but the universal accumulation statement fails whenever
the new bin count equals the old one: setDimensions skips the
reallocation that zero-initializes the output, so the sweep accumulates
on top of the old values.  Rebinning data [10,20,30] from edges [0,1,2,3]
onto the same edges yields [20,40,60] instead of the [10,20,30] required
by the claim (and by the specifications rebin-identity scenario). -/
theorem rebinExamplesAndIdentityBug :
    rebin1D [10] [0, 2] [0, 1, 2] = [5, 5] ∧
    rebin1D [1, 1, 1, 1] [0, 1, 2, 3, 4] [0, 2, 4] = [2, 2] ∧
    rebin1D [10, 20, 30] [0, 1, 2, 3] [0, 1, 2, 3] = [20, 40, 60] ∧
    ¬ rebin1D [10, 20, 30] [0, 1, 2, 3] [0, 1, 2, 3] = [10, 20, 30] := by
  have h3 : rebin1D [10, 20, 30] [0, 1, 2, 3] [0, 1, 2, 3]
      = [20, 40, 60] := by
    norm_num [rebin1D, rebinSweep, List.set, List.replicate]
  refine ⟨?_, ?_, h3, ?_⟩
  · norm_num [rebin1D, rebinSweep, List.set, List.replicate]
  · norm_num [rebin1D, rebinSweep, List.set, List.replicate]
  · rw [h3]
    norm_num

/-- C2 counterexample: an in-place multiplication that fails on
element-kind mismatch (double times int64) raises its exception only
after times_equals has written the product unit, so the left-hand unit is
changed on failure, contradicting the claim. -/
theorem timesEqualsKindMismatchChangesUnit :
    (times_equals
        ⟨Tag.doubleT, ⟨1, 0⟩, "", ⟨[(Dim.X, 1)]⟩, [2]⟩
        ⟨Tag.int64T, ⟨0, 1⟩, "", ⟨[(Dim.X, 1)]⟩, [3]⟩).2
      = some Err.typesDoNotMatch ∧
    ¬ (times_equals
        ⟨Tag.doubleT, ⟨1, 0⟩, "", ⟨[(Dim.X, 1)]⟩, [2]⟩
        ⟨Tag.int64T, ⟨0, 1⟩, "", ⟨[(Dim.X, 1)]⟩, [3]⟩).1.unit
      = (⟨1, 0⟩ : UnitId) := by
  decide

/-- C2 amended: for += and -=, every failure (unit mismatch, dimension
mismatch, element-kind mismatch, non-arithmetic kind) is raised before
any write and leaves the left-hand Variable fully unchanged; for *=, a
dimension mismatch is raised before any write, but an element-kind
mismatch is detected only after the unit write, so on that failure the
left-hand unit has already been updated to the product of the units
while name, dimensions and elements are unchanged. -/
theorem inPlaceFailureStates (v o : Variable) :
    ((plus_equals v o).2.isSome = true → (plus_equals v o).1 = v) ∧
    ((minus_equals v o).2.isSome = true → (minus_equals v o).1 = v) ∧
    (¬ v.dims.containsDims o.dims →
      times_equals v o = (v, some Err.timesDims)) ∧
    (v.dims.containsDims o.dims → ¬ v.tag = o.tag →
      times_equals v o
        = ({ v with unit := v.unit.mul o.unit },
            some Err.typesDoNotMatch)) := by
  refine ⟨?_, ?_, ?_, ?_⟩
  · intro hsome
    by_cases hu : v.unit = o.unit
    · by_cases hc : v.dims.containsDims o.dims
      · rcases hok : applyOp (fun a b => a + b) v o with e | dta
        · unfold plus_equals
          rw [if_neg (by simp [hu]), if_pos hc, hok]
        · exfalso
          unfold plus_equals at hsome
          rw [if_neg (by simp [hu]), if_pos hc, hok] at hsome
          simp at hsome
      · unfold plus_equals
        rw [if_neg (by simp [hu]), if_neg hc]
    · unfold plus_equals
      rw [if_pos (by simp [hu])]
  · intro hsome
    by_cases hu : v.unit = o.unit
    · by_cases hc : v.dims.containsDims o.dims
      · rcases hok : applyOp (fun a b => a - b) v o with e | dta
        · unfold minus_equals
          rw [if_neg (by simp [hu]), if_pos hc, hok]
        · exfalso
          unfold minus_equals at hsome
          rw [if_neg (by simp [hu]), if_pos hc, hok] at hsome
          simp at hsome
      · unfold minus_equals
        rw [if_neg (by simp [hu]), if_neg hc]
    · unfold minus_equals
      rw [if_pos (by simp [hu])]
  · intro hc
    unfold times_equals
    rw [if_pos hc]
  · intro hc htag
    have happ : applyOp (fun a b => a * b)
        { v with unit := v.unit.mul o.unit } o
        = Except.error Err.typesDoNotMatch := by
      unfold applyOp
      rw [if_pos (by simpa using htag)]
    unfold times_equals
    rw [if_neg (not_not_intro hc), happ]


theorem inPlaceFailureStatesWitness :
    times_equals
        ⟨Tag.doubleT, ⟨1, 0⟩, "", ⟨[(Dim.X, 1)]⟩, [2]⟩
        ⟨Tag.int64T, ⟨0, 1⟩, "", ⟨[(Dim.X, 1)]⟩, [3]⟩
      = (⟨Tag.doubleT, (⟨1, 0⟩ : UnitId).mul ⟨0, 1⟩, "",
          ⟨[(Dim.X, 1)]⟩, [2]⟩, some Err.typesDoNotMatch) ∧
    (plus_equals
        ⟨Tag.doubleT, ⟨1, 0⟩, "", ⟨[(Dim.X, 1)]⟩, [2]⟩
        ⟨Tag.int64T, ⟨1, 0⟩, "", ⟨[(Dim.X, 1)]⟩, [3]⟩).1
      = ⟨Tag.doubleT, ⟨1, 0⟩, "", ⟨[(Dim.X, 1)]⟩, [2]⟩ :=
  ⟨(inPlaceFailureStates _ _).2.2.2 (by decide) (by decide),
   (inPlaceFailureStates _ _).1 (by decide)⟩

/-- Claim-side description of the fused sparse/dense kernel, following
the words of the specification: offset = edges[0], scale =
K/(edges[K] - edges[0]), bin = floor((e - offset) * scale), and each
event contributes op(1, weights[bin]) when bin lies in [0, K) and
op(1, 0) otherwise. -/
def sparseDenseSpecRow (op : ℚ → ℚ → ℚ)
    (coord edges weights : List ℚ) : List ℚ :=
  coord.map (fun c =>
    let offset := edges.getD 0 0
    let K := edges.length - 1
    let scale := (K : ℚ) / (edges.getD K 0 - offset)
    let bin : Int := ⌊(c - offset) * scale⌋
    if 0 ≤ bin ∧ bin < (K : Int) then op 1 (weights.getD bin.toNat 0)
    else op 1 0)

/-- C8: with uniformly spaced edges, the fused sparse/dense kernel maps
each event to op(1, weights[bin]) where bin is the floor of
(event - edges[0]) * (K / (edges[K] - edges[0])) whenever that bin lies
in [0, K), and to op(1, 0) otherwise; calling the operation with
non-uniformly spaced edges is a hard error. -/
theorem sparseDenseOpSpec (op : ℚ → ℚ → ℚ) (coord edges weights : List ℚ) :
    (is_linspace edges = true →
      apply_op_sparse_dense op coord edges weights
        = Except.ok (sparseDenseSpecRow op coord edges weights)) ∧
    (is_linspace edges = false →
      apply_op_sparse_dense op coord edges weights
        = Except.error Err.nonLinspaceEdges) := by
  constructor
  · intro hlin
    simp only [apply_op_sparse_dense, sparseDenseSpecRow, linear_edge_params,
      hlin, if_pos]
    congr 1
    rw [foldl_push_eq_map, List.nil_append]
    apply List.map_congr_left
    intro c _
    set r : ℚ := (c - edges.getD 0 0) *
      (((edges.length - 1 : Nat) : ℚ) /
        (edges.getD (edges.length - 1) 0 - edges.getD 0 0)) with hr
    have h0 : (0 ≤ r) ↔ (0 ≤ ⌊r⌋) := by
      rw [Int.le_floor]
      norm_num
    have h1 : (r < ((edges.length - 1 : Nat) : ℚ)) ↔
        (⌊r⌋ < ((edges.length - 1 : Nat) : Int)) := by
      rw [Int.floor_lt]
      constructor
      · intro h
        exact_mod_cast h
      · intro h
        exact_mod_cast h
    have hcond : (0 ≤ r ∧ r < ((edges.length - 1 : Nat) : ℚ)) ↔
        (0 ≤ ⌊r⌋ ∧ ⌊r⌋ < ((edges.length - 1 : Nat) : Int)) :=
      and_congr h0 h1
    by_cases hc : 0 ≤ r ∧ r < ((edges.length - 1 : Nat) : ℚ)
    · rw [if_pos hc, if_pos (hcond.mp hc)]
    · rw [if_neg hc, if_neg (fun h => hc (hcond.mpr h))]
  · intro hlin
    unfold apply_op_sparse_dense
    rw [if_neg (by simp [hlin])]

theorem sparseDenseOpSpecWitness :
    apply_op_sparse_dense (fun a b => a * b)
        [1/2, 3/2, -1, 5] [0, 1, 2] [10, 20]
      = Except.ok [10, 20, 0, 0] ∧
    apply_op_sparse_dense (fun a b => a * b) [1/2] [0, 1, 3] [10, 20]
      = Except.error Err.nonLinspaceEdges := by
  constructor
  · rw [(sparseDenseOpSpec (fun a b => a * b)
      [1/2, 3/2, -1, 5] [0, 1, 2] [10, 20]).1
      (by norm_num [is_linspace, List.range_succ, List.all_append,
        List.all_cons, List.all_nil])]
    norm_num [sparseDenseSpecRow]
  · exact (sparseDenseOpSpec (fun a b => a * b) [1/2] [0, 1, 3] [10, 20]).2
      (by norm_num [is_linspace, List.range_succ, List.all_append,
        List.all_cons, List.all_nil])

/-- C9 counterexample: the claim admits b = v.dims[d] (b <= dims[d]), but
expect::validSlice rejects the empty slice whose begin and end both equal
the extent: begin must be strictly below min(end + 1, extent) = extent.
With dims {X:2}, the slice (X, 2, 2) satisfies 0 <= 2 = end <= extent yet
raises a SliceError. -/
theorem validSliceEndBoundaryRejected :
    validSlice ⟨[(Dim.X, 2)]⟩ ⟨Dim.X, 2, 2⟩
      = Except.error Err.sliceOutOfRange ∧
    (2 : Int) ≤ ((Dimensions.extOf ⟨[(Dim.X, 2)]⟩ Dim.X : Nat) : Int) := by
  exact ⟨rfl, by decide⟩

/-- C9 amended: for every Variable dimension d and index b with
0 <= b = end strictly below the extent, the slice (d, b, b) is accepted
and yields an empty view of zero volume (at b equal to the extent a
SliceError is raised instead); on a zero-volume Variable, += and -= (with
matching units and kinds) leave the Variable unchanged and succeed, and
*= leaves the elements unchanged (only the unit is updated to the
product, as it is on every successful *=). -/
theorem emptySliceAndZeroVolumeOps (D : Dimensions) (d : Dim) (b : Nat)
    (v o : Variable) (hd : d ∈ D.labels) (hb : b < D.extOf d)
    (hvol : v.dims.volume = 0) (hlen : v.data.length = v.dims.volume)
    (hu : v.unit = o.unit) (ht : v.tag = o.tag) (ha : v.tag.isArith = true)
    (hc : v.dims.containsDims o.dims) :
    validSlice D ⟨d, (b : Int), (b : Int)⟩ = Except.ok () ∧
    (D.resize d 0).volume = 0 ∧
    plus_equals v o = (v, none) ∧
    minus_equals v o = (v, none) ∧
    times_equals v o
      = ({ v with unit := v.unit.mul o.unit }, none) := by
  have hbi : ((b : Int)) < ((D.extOf d : Nat) : Int) := by exact_mod_cast hb
  have hdnil : v.data = [] :=
    List.eq_nil_of_length_eq_zero (hlen.trans hvol)
  have happlus : applyOp (fun a b => a + b) v o = Except.ok [] := by
    unfold applyOp
    rw [if_neg (by simp [ht]), if_pos ha, if_pos hc, hvol]
    simp
  have happminus : applyOp (fun a b => a - b) v o = Except.ok [] := by
    unfold applyOp
    rw [if_neg (by simp [ht]), if_pos ha, if_pos hc, hvol]
    simp
  have happtimes : applyOp (fun a b => a * b)
      { v with unit := v.unit.mul o.unit } o = Except.ok [] := by
    unfold applyOp
    rw [if_neg (by simp [ht]), if_pos ha, if_pos hc]
    show Except.ok ((List.range v.dims.volume).map _) = _
    rw [hvol]
    simp
  refine ⟨?_, D.volume_resize_zero d hd, ?_, ?_, ?_⟩
  · unfold validSlice
    dsimp only
    rw [if_pos (Int.ofNat_nonneg b), min_eq_left (by omega)]
    rw [if_neg ?hcond]
    case hcond =>
      push_neg
      exact ⟨hd, Int.ofNat_nonneg b, by omega, by omega⟩
  · unfold plus_equals
    rw [if_neg (by simp [hu]), if_pos hc, happlus, ← hdnil]
  · unfold minus_equals
    rw [if_neg (by simp [hu]), if_pos hc, happminus, ← hdnil]
  · unfold times_equals
    rw [if_neg (not_not_intro hc), happtimes, ← hdnil]

theorem emptySliceAndZeroVolumeOpsWitness :
    validSlice ⟨[(Dim.X, 2)]⟩ ⟨Dim.X, ((1 : Nat) : Int), ((1 : Nat) : Int)⟩
      = Except.ok () ∧
    (Dimensions.resize ⟨[(Dim.X, 2)]⟩ Dim.X 0).volume = 0 ∧
    plus_equals ⟨Tag.doubleT, ⟨0, 0⟩, "", ⟨[(Dim.X, 0)]⟩, []⟩
        ⟨Tag.doubleT, ⟨0, 0⟩, "", ⟨[(Dim.X, 0)]⟩, []⟩
      = (⟨Tag.doubleT, ⟨0, 0⟩, "", ⟨[(Dim.X, 0)]⟩, []⟩, none) :=
  have h := emptySliceAndZeroVolumeOps ⟨[(Dim.X, 2)]⟩ Dim.X 1
    ⟨Tag.doubleT, ⟨0, 0⟩, "", ⟨[(Dim.X, 0)]⟩, []⟩
    ⟨Tag.doubleT, ⟨0, 0⟩, "", ⟨[(Dim.X, 0)]⟩, []⟩
    (by decide) (by decide) (by decide) (by decide) (by decide) (by decide)
    (by decide) (by decide)
  ⟨h.1, h.2.1, h.2.2.1⟩

/-- C5 counterexample: two Variables that agree in unit, name, dimensions
and in every element under the left-hand iteration order, but differ in
element-kind tag (double versus int64), compare unequal, so the claimed
iff (which omits the element-kind check of Variable::operator==) fails. -/
theorem variableEqNeedsTag :
    ¬ variableEq ⟨Tag.doubleT, ⟨0, 0⟩, "", ⟨[(Dim.X, 1)]⟩, [1]⟩
        ⟨Tag.int64T, ⟨0, 0⟩, "", ⟨[(Dim.X, 1)]⟩, [1]⟩ ∧
    (⟨Tag.doubleT, ⟨0, 0⟩, "", ⟨[(Dim.X, 1)]⟩, [1]⟩ : Variable).unit
      = (⟨Tag.int64T, ⟨0, 0⟩, "", ⟨[(Dim.X, 1)]⟩, [1]⟩ : Variable).unit ∧
    (⟨Tag.doubleT, ⟨0, 0⟩, "", ⟨[(Dim.X, 1)]⟩, [1]⟩ : Variable).name
      = (⟨Tag.int64T, ⟨0, 0⟩, "", ⟨[(Dim.X, 1)]⟩, [1]⟩ : Variable).name ∧
    Dimensions.permEq ⟨[(Dim.X, 1)]⟩ ⟨[(Dim.X, 1)]⟩ ∧
    iterAt ⟨Tag.doubleT, ⟨0, 0⟩, "", ⟨[(Dim.X, 1)]⟩, [1]⟩ ⟨[(Dim.X, 1)]⟩
      = iterAt ⟨Tag.int64T, ⟨0, 0⟩, "", ⟨[(Dim.X, 1)]⟩, [1]⟩
          ⟨[(Dim.X, 1)]⟩ := by
  refine ⟨?_, rfl, rfl, ?_, rfl⟩
  · intro h
    exact absurd h.2.2.1 (by decide)
  · exact List.Perm.refl _

/-- C5 amended: Variable equality holds iff the units agree, the names
agree, the element-kind tags agree, the Dimensions agree up to a
permutation of axis order, and all elements agree when both sides are
iterated in the left-hand iteration order (so permuted dimension lists
with correspondingly transposed layouts compare equal). -/
theorem variableEqCharacterization (v o : Variable)
    (hnd1 : v.dims.labels.Nodup) (hnd2 : o.dims.labels.Nodup)
    (hlen1 : v.data.length = v.dims.volume)
    (hlen2 : o.data.length = o.dims.volume) :
    variableEq v o ↔
      (v.unit = o.unit ∧ v.name = o.name ∧ v.tag = o.tag ∧
        v.dims.permEq o.dims ∧ iterAt v v.dims = iterAt o v.dims) := by
  unfold variableEq conceptEq
  constructor
  · rintro ⟨hn, hu, ht, hperm, hdata⟩
    refine ⟨hu, hn, ht, hperm, ?_⟩
    by_cases he : v.dims = o.dims
    · rw [if_pos he] at hdata
      rw [iterAt_self v hnd1 hlen1, hdata, he, iterAt_self o hnd2 hlen2]
    · rw [if_neg he] at hdata
      rw [iterAt_self v hnd1 hlen1, hdata]
  · rintro ⟨hu, hn, ht, hperm, hiter⟩
    refine ⟨hn, hu, ht, hperm, ?_⟩
    by_cases he : v.dims = o.dims
    · rw [if_pos he]
      rw [iterAt_self v hnd1 hlen1] at hiter
      rw [hiter, he, iterAt_self o hnd2 hlen2]
    · rw [if_neg he]
      rw [iterAt_self v hnd1 hlen1] at hiter
      exact hiter

theorem variableEqCharacterizationWitness :
    variableEq
        ⟨Tag.doubleT, ⟨0, 0⟩, "", ⟨[(Dim.X, 2), (Dim.Y, 3)]⟩,
          [0, 1, 2, 3, 4, 5]⟩
        ⟨Tag.doubleT, ⟨0, 0⟩, "", ⟨[(Dim.Y, 3), (Dim.X, 2)]⟩,
          [0, 2, 4, 1, 3, 5]⟩ :=
  (variableEqCharacterization
      ⟨Tag.doubleT, ⟨0, 0⟩, "", ⟨[(Dim.X, 2), (Dim.Y, 3)]⟩,
        [0, 1, 2, 3, 4, 5]⟩
      ⟨Tag.doubleT, ⟨0, 0⟩, "", ⟨[(Dim.Y, 3), (Dim.X, 2)]⟩,
        [0, 2, 4, 1, 3, 5]⟩
      (by decide) (by decide) (by decide) (by decide)).mpr
    (by refine ⟨rfl, rfl, rfl, by decide, by decide⟩)

/-- C4: concatenating two 1-D Variables of dims {X:3} along the new
label Y yields Dimensions listing X (innermost, extent 3) then Y
(outermost, extent 2): the new label becomes the outermost axis with
extent 2 and X keeps extent 3. -/
theorem concatenateNewAxisDims (a b : Variable)
    (htag : a.tag = b.tag) (hunit : a.unit = b.unit) (hname : a.name = b.name)
    (hda : a.dims = ⟨[(Dim.X, 3)]⟩) (hdb : b.dims = ⟨[(Dim.X, 3)]⟩) :
    Except.map Variable.dims (concatenate a b Dim.Y)
      = Except.ok (⟨[(Dim.X, 3), (Dim.Y, 2)]⟩ : Dimensions) ∧
    Dimensions.extOf ⟨[(Dim.X, 3), (Dim.Y, 2)]⟩ Dim.Y = 2 ∧
    Dimensions.extOf ⟨[(Dim.X, 3), (Dim.Y, 2)]⟩ Dim.X = 3 ∧
    Dimensions.labels ⟨[(Dim.X, 3), (Dim.Y, 2)]⟩ = [Dim.X, Dim.Y] := by
  refine ⟨?_, by decide, by decide, by decide⟩
  unfold concatenate
  rw [if_neg (by simp [htag]), if_neg (by simp [hunit]),
    if_neg (by simp [hname]),
    if_neg (by rw [hda, hdb]; exact not_not_intro (by decide)),
    if_neg (by rw [hda, hdb]; exact not_not_intro (by decide)),
    if_neg (by rw [hda, hdb]; simp [rankWithout])]
  show Except.ok (concatOut a b Dim.Y).dims = _
  rw [show (concatOut a b Dim.Y).dims
      = concatResultDims a.dims b.dims Dim.Y from rfl, hda, hdb]
  rfl

theorem concatenateNewAxisDimsWitness :
    Except.map Variable.dims
        (concatenate ⟨Tag.doubleT, ⟨0, 0⟩, "", ⟨[(Dim.X, 3)]⟩, [1, 2, 3]⟩
          ⟨Tag.doubleT, ⟨0, 0⟩, "", ⟨[(Dim.X, 3)]⟩, [4, 5, 6]⟩ Dim.Y)
      = Except.ok (⟨[(Dim.X, 3), (Dim.Y, 2)]⟩ : Dimensions) :=
  (concatenateNewAxisDims
      ⟨Tag.doubleT, ⟨0, 0⟩, "", ⟨[(Dim.X, 3)]⟩, [1, 2, 3]⟩
      ⟨Tag.doubleT, ⟨0, 0⟩, "", ⟨[(Dim.X, 3)]⟩, [4, 5, 6]⟩
      rfl rfl rfl rfl rfl).1

instance (D : Dimensions) (p : Dim → Nat) : Decidable (D.validP p) := by
  unfold Dimensions.validP
  infer_instance

/-- Update one component of a labelled multi-index. -/
def updP (p : Dim → Nat) (d : Dim) (x : Nat) : Dim → Nat :=
  fun l => if l = d then x else p l

theorem updP_self (p : Dim → Nat) (d : Dim) (x : Nat) : updP p d x d = x := by
  simp [updP]

theorem updP_ne (p : Dim → Nat) (d : Dim) (x : Nat) (l : Dim)
    (h : ¬ l = d) : updP p d x l = p l := by
  simp [updP, h]

theorem Variable.extEq (v o : Variable) (h1 : v.tag = o.tag)
    (h2 : v.unit = o.unit) (h3 : v.name = o.name) (h4 : v.dims = o.dims)
    (h5 : v.data = o.data) : v = o := by
  cases v
  cases o
  simp_all

/-- Evaluation of the permute fold after the first j copies: positions
with component below j along d have been overwritten from the listed
indices, all others still hold the original values. -/
theorem permute_fold_at (v : Variable) (d : Dim) (indices : List Nat)
    (hnd : v.dims.labels.Nodup) (hd : d ∈ v.dims.labels)
    (j : Nat) (p : Dim → Nat) (hv : v.dims.validP p) :
    ((List.range j).foldl (fun dta i =>
        copyDim { v with data := dta } v d i (indices.getD i 0)
          (indices.getD i 0 + 1)) v.data).getD (v.dims.flatP p) 0
      = if p d < j then v.atP (updP p d (indices.getD (p d) 0))
        else v.atP p := by
  induction j with
  | zero =>
    simp only [List.range_zero, List.foldl_nil, Nat.not_lt_zero, if_false]
    rfl
  | succ j ih =>
    rw [List.range_succ, List.foldl_append, List.foldl_cons, List.foldl_nil]
    have hcopy := copyDim_at
      { v with data := (List.range j).foldl (fun dta i =>
          copyDim { v with data := dta } v d i (indices.getD i 0)
            (indices.getD i 0 + 1)) v.data }
      v d j (indices.getD j 0) (indices.getD j 0 + 1) hnd
      (fun l hl => hl) p hv
    rw [hcopy]
    rw [if_pos hd]
    by_cases hpd : j ≤ p d ∧ p d < j + (indices.getD j 0 + 1 - indices.getD j 0)
    · have hpj : p d = j := by omega
      rw [if_pos hpd, if_pos (by omega)]
      apply v.atP_congr
      intro l hl
      by_cases hld : l = d
      · subst hld
        rw [updP_self, hpj]
        simp
      · rw [if_neg hld, updP_ne _ _ _ _ hld]
    · have hpj : ¬ p d = j := by omega
      rw [if_neg hpd, ih]
      by_cases hlt : p d < j
      · rw [if_pos hlt, if_pos (by omega)]
      · rw [if_neg hlt, if_neg (by omega)]

/-- C10: permute(var, dim, indices) overwrites only the positions
0 .. len(indices)-1 along dim (position i receives the single-element
slice of var at indices[i]); every position at or beyond len(indices)
keeps the corresponding element of the original var, because the result
starts as a copy of var. -/
theorem permuteFrameEffect (v : Variable) (d : Dim) (indices : List Nat)
    (hnd : v.dims.labels.Nodup) (hd : d ∈ v.dims.labels)
    (hcount : indices.length ≤ v.dims.extOf d)
    (hidx : ∀ i ∈ indices, i < v.dims.extOf d)
    (p : Dim → Nat) (hv : v.dims.validP p) :
    (permute v d indices).dims = v.dims ∧
    (permute v d indices).atP p
      = (if p d < indices.length then
          v.atP (updP p d (indices.getD (p d) 0))
        else v.atP p) := by
  refine ⟨rfl, ?_⟩
  show ((List.range indices.length).foldl (fun dta i =>
      copyDim { v with data := dta } v d i (indices.getD i 0)
        (indices.getD i 0 + 1)) v.data).getD (v.dims.flatP p) 0 = _
  exact permute_fold_at v d indices hnd hd indices.length p hv

theorem permuteFrameEffectWitness :
    (permute ⟨Tag.doubleT, ⟨0, 0⟩, "", ⟨[(Dim.X, 4)]⟩, [1, 2, 3, 4]⟩
        Dim.X [2, 0]).atP (fun l => if l = Dim.X then 3 else 0)
      = (⟨Tag.doubleT, ⟨0, 0⟩, "", ⟨[(Dim.X, 4)]⟩, [1, 2, 3, 4]⟩
          : Variable).atP (fun l => if l = Dim.X then 3 else 0) ∧
    (permute ⟨Tag.doubleT, ⟨0, 0⟩, "", ⟨[(Dim.X, 4)]⟩, [1, 2, 3, 4]⟩
        Dim.X [2, 0]).atP (fun l => if l = Dim.X then 0 else 0)
      = (⟨Tag.doubleT, ⟨0, 0⟩, "", ⟨[(Dim.X, 4)]⟩, [1, 2, 3, 4]⟩
          : Variable).atP (updP (fun l => if l = Dim.X then 0 else 0)
            Dim.X ([2, 0].getD 0 0)) := by
  constructor
  · have h := (permuteFrameEffect
      ⟨Tag.doubleT, ⟨0, 0⟩, "", ⟨[(Dim.X, 4)]⟩, [1, 2, 3, 4]⟩
      Dim.X [2, 0] (by decide) (by decide) (by decide) (by decide)
      (fun l => if l = Dim.X then 3 else 0) (by decide)).2
    rw [h]
    rfl
  · have h := (permuteFrameEffect
      ⟨Tag.doubleT, ⟨0, 0⟩, "", ⟨[(Dim.X, 4)]⟩, [1, 2, 3, 4]⟩
      Dim.X [2, 0] (by decide) (by decide) (by decide) (by decide)
      (fun l => if l = Dim.X then 0 else 0) (by decide)).2
    rw [h]
    rfl

theorem resize_resize (D : Dimensions) (d : Dim) (a b : Nat) :
    (D.resize d a).resize d b = D.resize d b := by
  show Dimensions.mk ((D.dims.map (fun p => if p.1 = d then (p.1, a)
      else p)).map (fun p => if p.1 = d then (p.1, b) else p))
    = Dimensions.mk (D.dims.map (fun p => if p.1 = d then (p.1, b) else p))
  congr 1
  rw [List.map_map]
  apply List.map_congr_left
  intro p _
  by_cases hp : p.1 = d
  · simp [Function.comp, hp]
  · simp [Function.comp, hp]

theorem dims_length_resize (D : Dimensions) (d : Dim) (n : Nat) :
    (D.resize d n).dims.length = D.dims.length := by
  simp [Dimensions.resize]

theorem copyDim_length (self other : Variable) (d : Dim)
    (offset ob oe : Nat) :
    (copyDim self other d offset ob oe).length = self.dims.volume := by
  simp [copyDim]

theorem sliceRange_dims (v : Variable) (d : Dim) (b e : Nat) :
    (sliceRange v d b e).dims = v.dims.resize d (e - b) := by
  unfold sliceRange
  split
  · rename_i h
    exact h.symm
  · rfl

theorem sliceRange_tag (v : Variable) (d : Dim) (b e : Nat) :
    (sliceRange v d b e).tag = v.tag := by
  unfold sliceRange
  split <;> rfl

theorem sliceRange_unit (v : Variable) (d : Dim) (b e : Nat) :
    (sliceRange v d b e).unit = v.unit := by
  unfold sliceRange
  split <;> rfl

theorem sliceRange_name (v : Variable) (d : Dim) (b e : Nat) :
    (sliceRange v d b e).name = v.name := by
  unfold sliceRange
  split <;> rfl

theorem sliceRange_length (v : Variable) (d : Dim) (b e : Nat)
    (hlen : v.data.length = v.dims.volume) :
    (sliceRange v d b e).data.length = (v.dims.resize d (e - b)).volume := by
  unfold sliceRange
  split
  · rename_i h
    rw [hlen, h]
  · exact copyDim_length _ _ _ _ _ _

/-- Evaluation of a materializing slice at a valid multi-index of its
own (resized) Dimensions: element p of the slice is element p shifted by
begin along dim of the parent. -/
theorem sliceRange_at (v : Variable) (d : Dim) (b e : Nat)
    (hnd : v.dims.labels.Nodup) (hd : d ∈ v.dims.labels)
    (hbe : b ≤ e) (hen : e ≤ v.dims.extOf d)
    (p : Dim → Nat) (hv : (v.dims.resize d (e - b)).validP p) :
    (sliceRange v d b e).atP p = v.atP (updP p d (p d + b)) := by
  unfold sliceRange
  split
  · rename_i h
    have hext : v.dims.extOf d = e - b := by
      conv_lhs => rw [← h]
      exact v.dims.extOf_resize_self d (e - b) hd
    have hb0 : b = 0 := by omega
    subst hb0
    apply v.atP_congr
    intro l hl
    by_cases hld : l = d
    · subst hld
      rw [updP_self]
      omega
    · rw [updP_ne _ _ _ _ hld]
  · have hnd2 : (sliceInit v d b e).dims.labels.Nodup := by
      show (v.dims.resize d (e - b)).labels.Nodup
      rw [Dimensions.labels_resize]
      exact hnd
    have hsub : ∀ l ∈ v.dims.labels, l ∈ (sliceInit v d b e).dims.labels := by
      intro l hl
      show l ∈ (v.dims.resize d (e - b)).labels
      rw [Dimensions.labels_resize]
      exact hl
    have hcopy := copyDim_at (sliceInit v d b e) v d 0 b e hnd2 hsub p hv
    show (copyDim (sliceInit v d b e) v d 0 b e).getD
        ((sliceInit v d b e).dims.flatP p) 0 = _
    rw [hcopy]
    have hdmem : d ∈ (sliceInit v d b e).dims.labels := by
      show d ∈ (v.dims.resize d (e - b)).labels
      rw [Dimensions.labels_resize]
      exact hd
    rw [if_pos hdmem]
    have hpd : p d < e - b := by
      have := hv d (by rw [Dimensions.labels_resize]; exact hd)
      rwa [v.dims.extOf_resize_self d (e - b) hd] at this
    rw [if_pos ⟨Nat.zero_le _, by omega⟩]
    apply v.atP_congr
    intro l hl
    by_cases hld : l = d
    · subst hld
      rw [if_pos rfl, updP_self]
      omega
    · rw [if_neg hld, updP_ne _ _ _ _ hld]

/-- Two Variables over the same Dimensions with full-volume buffers and
equal elements at every valid multi-index have equal buffers. -/
theorem data_eq_of_atP_eq (w1 w2 : Variable) (hd : w1.dims = w2.dims)
    (hnd : w1.dims.labels.Nodup)
    (h1 : w1.data.length = w1.dims.volume)
    (h2 : w2.data.length = w1.dims.volume)
    (hat : ∀ p, w1.dims.validP p → w1.atP p = w2.atP p) :
    w1.data = w2.data := by
  apply List.ext_getElem
  · rw [h1, h2]
  · intro i hi1 hi2
    have hik : i < w1.dims.volume := by rw [← h1]; exact hi1
    have hval := hat (w1.dims.point i) (w1.dims.validP_point i hik)
    unfold Variable.atP at hval
    rw [← hd, w1.dims.flatP_point hnd i hik] at hval
    rw [List.getD_eq_getElem _ _ (by rw [h1]; exact hik),
      List.getD_eq_getElem _ _ (by rw [h2]; exact hik)] at hval
    exact hval

/-- Concatenating the slice [0, k) of a Variable with its slice [k, m)
along the same dimension rebuilds the slice [0, m). -/
theorem concat_slice_slice (v : Variable) (d : Dim) (k m : Nat)
    (hnd : v.dims.labels.Nodup) (hd : d ∈ v.dims.labels)
    (hlen : v.data.length = v.dims.volume)
    (hkm : k ≤ m) (hmn : m ≤ v.dims.extOf d) :
    concatenate (sliceRange v d 0 k) (sliceRange v d k m) d
      = Except.ok (sliceRange v d 0 m) := by
  have hs1d : (sliceRange v d 0 k).dims = v.dims.resize d k := by
    rw [sliceRange_dims, Nat.sub_zero]
  have hs2d : (sliceRange v d k m).dims = v.dims.resize d (m - k) :=
    sliceRange_dims v d k m
  have hlab1 : (sliceRange v d 0 k).dims.labels = v.dims.labels := by
    rw [hs1d, Dimensions.labels_resize]
  have hlab2 : (sliceRange v d k m).dims.labels = v.dims.labels := by
    rw [hs2d, Dimensions.labels_resize]
  have hm1 : d ∈ (sliceRange v d 0 k).dims.labels := by
    rw [hlab1]; exact hd
  have hm2 : d ∈ (sliceRange v d k m).dims.labels := by
    rw [hlab2]; exact hd
  have he1 : concatExtent (sliceRange v d 0 k).dims d = k := by
    unfold concatExtent
    rw [if_pos hm1, hs1d, v.dims.extOf_resize_self d k hd]
  have he2 : concatExtent (sliceRange v d k m).dims d = m - k := by
    unfold concatExtent
    rw [if_pos hm2, hs2d, v.dims.extOf_resize_self d (m - k) hd]
  have hcrd : concatResultDims (sliceRange v d 0 k).dims
      (sliceRange v d k m).dims d = v.dims.resize d m := by
    unfold concatResultDims
    rw [if_pos hm1, he1, he2, hs1d, resize_resize,
      Nat.add_sub_cancel' hkm]
  have hg1 : ¬ (sliceRange v d 0 k).tag ≠ (sliceRange v d k m).tag := by
    rw [sliceRange_tag, sliceRange_tag]
    simp
  have hg2 : ¬ (sliceRange v d 0 k).unit ≠ (sliceRange v d k m).unit := by
    rw [sliceRange_unit, sliceRange_unit]
    simp
  have hg3 : ¬ (sliceRange v d 0 k).name ≠ (sliceRange v d k m).name := by
    rw [sliceRange_name, sliceRange_name]
    simp
  have hg4 : ¬ ¬ concatDimsOk (sliceRange v d 0 k).dims
      (sliceRange v d k m).dims d := by
    apply not_not_intro
    intro l hl hne
    rw [hlab2]
    rw [hlab1] at hl
    exact hl
  have hg5 : ¬ ¬ concatExtentsOk (sliceRange v d 0 k).dims
      (sliceRange v d k m).dims d := by
    apply not_not_intro
    intro l hl hne
    rw [hs1d, hs2d, v.dims.extOf_resize_ne d (m - k) l hne,
      v.dims.extOf_resize_ne d k l hne]
  have hg6 : ¬ rankWithout (sliceRange v d 0 k).dims d
      ≠ rankWithout (sliceRange v d k m).dims d := by
    apply not_not_intro
    unfold rankWithout
    rw [if_pos hm1, if_pos hm2, hs1d, hs2d, dims_length_resize,
      dims_length_resize]
  unfold concatenate
  rw [if_neg hg1, if_neg hg2, if_neg hg3, if_neg hg4, if_neg hg5, if_neg hg6]
  congr 1
  have hndm : (v.dims.resize d m).labels.Nodup := by
    rw [Dimensions.labels_resize]
    exact hnd
  have hextm : (v.dims.resize d m).extOf d = m :=
    v.dims.extOf_resize_self d m hd
  apply Variable.extEq
  · show (sliceRange v d 0 k).tag = (sliceRange v d 0 m).tag
    rw [sliceRange_tag, sliceRange_tag]
  · show (sliceRange v d 0 k).unit = (sliceRange v d 0 m).unit
    rw [sliceRange_unit, sliceRange_unit]
  · show (sliceRange v d 0 k).name = (sliceRange v d 0 m).name
    rw [sliceRange_name, sliceRange_name]
  · show concatResultDims _ _ d = (sliceRange v d 0 m).dims
    rw [hcrd, sliceRange_dims, Nat.sub_zero]
  · -- the data buffers agree pointwise
    apply data_eq_of_atP_eq
    · show concatResultDims _ _ d = (sliceRange v d 0 m).dims
      rw [hcrd, sliceRange_dims, Nat.sub_zero]
    · show (concatResultDims _ _ d).labels.Nodup
      rw [hcrd]
      exact hndm
    · show (copyDim (concatFirst _ _ d) _ d _ 0 _).length
        = (concatResultDims _ _ d).volume
      rw [copyDim_length]
      rfl
    · show (sliceRange v d 0 m).data.length = (concatResultDims _ _ d).volume
      rw [sliceRange_length v d 0 m hlen, Nat.sub_zero, hcrd]
    · intro p hp
      have hcod : (concatOut (sliceRange v d 0 k) (sliceRange v d k m)
          d).dims = v.dims.resize d m := by
        show concatResultDims _ _ d = _
        exact hcrd
      rw [hcod] at hp
      have hvp : (v.dims.resize d m).validP p := hp
      have hpm : p d < m := by
        have := hvp d (by rw [Dimensions.labels_resize]; exact hd)
        rwa [hextm] at this
      have hvalid : ∀ l ∈ v.dims.labels, l ≠ d →
          p l < v.dims.extOf l := by
        intro l hl hne
        have := hvp l (by rw [Dimensions.labels_resize]; exact hl)
        rwa [v.dims.extOf_resize_ne d m l hne] at this
      have hrhs : (sliceRange v d 0 m).atP p = v.atP p := by
        rw [sliceRange_at v d 0 m hnd hd (Nat.zero_le m) hmn p
          (by rw [Nat.sub_zero]; exact hvp)]
        apply v.atP_congr
        intro l hl
        by_cases hld : l = d
        · subst hld
          rw [updP_self]
          omega
        · rw [updP_ne _ _ _ _ hld]
      rw [hrhs]
      -- left-hand side: unpack the two copies
      have hndF : (concatFirst (sliceRange v d 0 k) (sliceRange v d k m)
          d).dims.labels.Nodup := by
        show (concatResultDims _ _ d).labels.Nodup
        rw [hcrd]
        exact hndm
      have hsub2 : ∀ l ∈ (sliceRange v d k m).dims.labels,
          l ∈ (concatFirst (sliceRange v d 0 k) (sliceRange v d k m)
            d).dims.labels := by
        intro l hl
        show l ∈ (concatResultDims _ _ d).labels
        rw [hcrd, Dimensions.labels_resize]
        rw [hlab2] at hl
        exact hl
      have hpF : (concatFirst (sliceRange v d 0 k) (sliceRange v d k m)
          d).dims.validP p := by
        show (concatResultDims _ _ d).validP p
        rw [hcrd]
        exact hvp
      have hdF : d ∈ (concatFirst (sliceRange v d 0 k) (sliceRange v d k m)
          d).dims.labels := by
        show d ∈ (concatResultDims _ _ d).labels
        rw [hcrd, Dimensions.labels_resize]
        exact hd
      have hcopy2 := copyDim_at
        (concatFirst (sliceRange v d 0 k) (sliceRange v d k m) d)
        (sliceRange v d k m) d
        (concatExtent (sliceRange v d 0 k).dims d) 0
        (concatExtent (sliceRange v d k m).dims d) hndF hsub2 p hpF
      show (copyDim (concatFirst (sliceRange v d 0 k) (sliceRange v d k m)
          d) (sliceRange v d k m) d
          (concatExtent (sliceRange v d 0 k).dims d) 0
          (concatExtent (sliceRange v d k m).dims d)).getD
          ((concatFirst (sliceRange v d 0 k) (sliceRange v d k m)
            d).dims.flatP p) 0 = v.atP p
      rw [hcopy2, if_pos hdF, he1, he2]
      by_cases hcase : k ≤ p d ∧ p d < k + (m - k - 0)
      · rw [if_pos hcase]
        have hp2 : (v.dims.resize d (m - k)).validP
            (fun l => if l = d then p d - k + 0 else p l) := by
          intro l hl
          rw [Dimensions.labels_resize] at hl
          show (if l = d then p d - k + 0 else p l)
            < (v.dims.resize d (m - k)).extOf l
          by_cases hld : l = d
          · rw [if_pos hld, hld, v.dims.extOf_resize_self _ _ hd]
            omega
          · rw [if_neg hld, v.dims.extOf_resize_ne d (m - k) l hld]
            exact hvalid l hl hld
        rw [show (sliceRange v d k m).atP
            (fun l => if l = d then p d - k + 0 else p l)
          = v.atP (updP (fun l => if l = d then p d - k + 0 else p l) d
              ((fun l => if l = d then p d - k + 0 else p l) d + k)) from
          sliceRange_at v d k m hnd hd (by omega) hmn _ hp2]
        apply v.atP_congr
        intro l hl
        by_cases hld : l = d
        · rw [hld, updP_self]
          show (if d = d then p d - k + 0 else p d) + k = p d
          rw [if_pos rfl]
          omega
        · rw [updP_ne _ _ _ _ hld]
          show (if l = d then p d - k + 0 else p l) = p l
          rw [if_neg hld]
      · rw [if_neg hcase]
        -- fall through to the first copy
        have hsub1 : ∀ l ∈ (sliceRange v d 0 k).dims.labels,
            l ∈ (concatInit (sliceRange v d 0 k) (sliceRange v d k m)
              d).dims.labels := by
          intro l hl
          show l ∈ (concatResultDims _ _ d).labels
          rw [hcrd, Dimensions.labels_resize]
          rw [hlab1] at hl
          exact hl
        have hndI : (concatInit (sliceRange v d 0 k) (sliceRange v d k m)
            d).dims.labels.Nodup := by
          show (concatResultDims _ _ d).labels.Nodup
          rw [hcrd]
          exact hndm
        have hpI : (concatInit (sliceRange v d 0 k) (sliceRange v d k m)
            d).dims.validP p := by
          show (concatResultDims _ _ d).validP p
          rw [hcrd]
          exact hvp
        have hdI : d ∈ (concatInit (sliceRange v d 0 k) (sliceRange v d k m)
            d).dims.labels := by
          show d ∈ (concatResultDims _ _ d).labels
          rw [hcrd, Dimensions.labels_resize]
          exact hd
        have hcopy1 := copyDim_at
          (concatInit (sliceRange v d 0 k) (sliceRange v d k m) d)
          (sliceRange v d 0 k) d 0 0
          (concatExtent (sliceRange v d 0 k).dims d) hndI hsub1 p hpI
        show (copyDim (concatInit (sliceRange v d 0 k) (sliceRange v d k m)
            d) (sliceRange v d 0 k) d 0 0
            (concatExtent (sliceRange v d 0 k).dims d)).getD
            ((concatInit (sliceRange v d 0 k) (sliceRange v d k m)
              d).dims.flatP p) 0 = v.atP p
        rw [hcopy1, if_pos hdI, he1]
        have hpk : p d < k := by omega
        rw [if_pos ⟨Nat.zero_le _, by omega⟩]
        have hp3 : (v.dims.resize d (k - 0)).validP
            (fun l => if l = d then p d - 0 + 0 else p l) := by
          rw [Nat.sub_zero]
          intro l hl
          rw [Dimensions.labels_resize] at hl
          show (if l = d then p d - 0 + 0 else p l)
            < (v.dims.resize d k).extOf l
          by_cases hld : l = d
          · rw [if_pos hld, hld, v.dims.extOf_resize_self _ _ hd]
            omega
          · rw [if_neg hld, v.dims.extOf_resize_ne d k l hld]
            exact hvalid l hl hld
        rw [show (sliceRange v d 0 k).atP
            (fun l => if l = d then p d - 0 + 0 else p l)
          = v.atP (updP (fun l => if l = d then p d - 0 + 0 else p l) d
              ((fun l => if l = d then p d - 0 + 0 else p l) d + 0)) from
          sliceRange_at v d 0 k hnd hd (Nat.zero_le k)
            (le_trans hkm hmn) _ hp3]
        apply v.atP_congr
        intro l hl
        by_cases hld : l = d
        · rw [hld, updP_self]
          show (if d = d then p d - 0 + 0 else p d) + 0 = p d
          rw [if_pos rfl]
          omega
        · rw [updP_ne _ _ _ _ hld]
          show (if l = d then p d - 0 + 0 else p l) = p l
          rw [if_neg hld]


/-- The full-range slice of a Variable is the Variable itself: the
resized Dimensions coincide with the original, so slice returns the copy
unchanged. -/
theorem slice_full (v : Variable) (d : Dim) (hnd : v.dims.labels.Nodup) :
    sliceRange v d 0 (v.dims.extOf d) = v := by
  unfold sliceRange
  rw [Nat.sub_zero, if_pos (v.dims.resize_extOf_self d hnd)]

/-- The tail of split (the mapped consecutive slices plus the final
slice) equals the recursive chops description. -/
theorem split_tail_eq_chops (v : Variable) (d : Dim) (rest : List Nat) :
    ∀ c : Nat,
    (List.range rest.length).map (fun i =>
        sliceRange v d ((c :: rest).getD i 0) ((c :: rest).getD (i + 1) 0))
      ++ [sliceRange v d ((c :: rest).getLastD 0) (v.dims.extOf d)]
    = chops v d c rest := by
  induction rest with
  | nil =>
    intro c
    simp [chops]
  | cons j rest ih =>
    intro c
    rw [List.length_cons, List.range_succ_eq_map, List.map_cons, List.map_map]
    have hfun : ((fun i => sliceRange v d ((c :: j :: rest).getD i 0)
        ((c :: j :: rest).getD (i + 1) 0)) ∘ Nat.succ)
      = (fun i => sliceRange v d ((j :: rest).getD i 0)
        ((j :: rest).getD (i + 1) 0)) := by
      funext i
      simp [List.getD_cons_succ]
    rw [hfun]
    have hlast : (c :: j :: rest).getLastD 0 = (j :: rest).getLastD 0 := by
      rw [List.getLastD_cons, List.getLastD_cons, List.getLastD_cons]
    rw [hlast, List.getD_cons_zero,
      show ((c :: j :: rest).getD 1 0) = j from rfl, List.cons_append,
      show chops v d c (j :: rest)
        = sliceRange v d c j :: chops v d j rest from rfl]
    congr 1
    exact ih j

/-- split of a nonempty boundary list is the head slice [0, c) followed
by the chops from c. -/
theorem split_eq_chops (v : Variable) (d : Dim) (c : Nat)
    (rest : List Nat) :
    split v d (c :: rest) = sliceRange v d 0 c :: chops v d c rest := by
  show sliceRange v d 0 c :: _ = sliceRange v d 0 c :: chops v d c rest
  rw [split_tail_eq_chops v d rest c]

/-- A nondecreasing chain of in-range boundaries from cursor c: the
extents of the chops along dim telescope to extent - c. -/
theorem chops_extent_sum (v : Variable) (d : Dim)
    (hd : d ∈ v.dims.labels) :
    ∀ (rest : List Nat) (c : Nat), List.Chain (· ≤ ·) c rest →
      (∀ i ∈ rest, i ≤ v.dims.extOf d) →
      ((chops v d c rest).map (fun w => w.dims.extOf d)).sum
        = v.dims.extOf d - c := by
  intro rest
  induction rest with
  | nil =>
    intro c _ _
    rw [show chops v d c [] = [sliceRange v d c (v.dims.extOf d)] from rfl,
      List.map_cons, List.map_nil, List.sum_cons, List.sum_nil,
      sliceRange_dims, v.dims.extOf_resize_self _ _ hd]
    omega
  | cons j rest ih =>
    intro c hchain hrange
    rw [List.chain_cons] at hchain
    have hj : j ≤ v.dims.extOf d := hrange j (List.mem_cons_self _ _)
    rw [show chops v d c (j :: rest)
        = sliceRange v d c j :: chops v d j rest from rfl,
      List.map_cons, List.sum_cons,
      ih j hchain.2 (fun i hi => hrange i (List.mem_cons_of_mem _ hi)),
      sliceRange_dims, v.dims.extOf_resize_self _ _ hd]
    omega

/-- Folding concatenate over the chops from cursor c, starting from the
accumulated slice [0, c), rebuilds the full-range slice. -/
theorem concat_chops (v : Variable) (d : Dim)
    (hnd : v.dims.labels.Nodup) (hd : d ∈ v.dims.labels)
    (hlen : v.data.length = v.dims.volume) :
    ∀ (rest : List Nat) (c : Nat), List.Chain (· ≤ ·) c rest →
      (∀ i ∈ rest, i ≤ v.dims.extOf d) → c ≤ v.dims.extOf d →
      (chops v d c rest).foldlM (fun acc x => concatenate acc x d)
          (sliceRange v d 0 c)
        = Except.ok (sliceRange v d 0 (v.dims.extOf d)) := by
  intro rest
  induction rest with
  | nil =>
    intro c _ _ hc
    show concatenate (sliceRange v d 0 c)
        (sliceRange v d c (v.dims.extOf d)) d >>= _ = _
    rw [concat_slice_slice v d c (v.dims.extOf d) hnd hd hlen hc le_rfl]
    rfl
  | cons j rest ih =>
    intro c hchain hrange hc
    rw [List.chain_cons] at hchain
    have hj : j ≤ v.dims.extOf d := hrange j (List.mem_cons_self _ _)
    show concatenate (sliceRange v d 0 c) (sliceRange v d c j) d >>= _ = _
    rw [concat_slice_slice v d c j hnd hd hlen hchain.1 hj]
    show (chops v d j rest).foldlM (fun acc x => concatenate acc x d)
        (sliceRange v d 0 j) = _
    exact ih j hchain.2 (fun i hi => hrange i (List.mem_cons_of_mem _ hi)) hj

/-- A strictly sorted head-and-tail boundary list yields a nondecreasing
chain. -/
theorem chain_le_of_pairwise (c : Nat) (rest : List Nat)
    (h : (c :: rest).Pairwise (· < ·)) : List.Chain (· ≤ ·) c rest := by
  induction rest generalizing c with
  | nil => exact List.Chain.nil
  | cons j t ih =>
    rw [List.pairwise_cons] at h
    exact List.Chain.cons (le_of_lt (h.1 j (List.mem_cons_self _ _))) (ih j h.2)

/-- C6: for every Variable v, dimension d of v, and strictly sorted
in-range index list idx, split(v, d, idx) partitions v along d at those
indices (empty idx gives the one-element list [v], and the pieces'
extents along d sum to v's extent along d), and folding concatenate over
the returned pieces along d in order rebuilds v exactly. -/
theorem concatSplitRoundtrip (v : Variable) (d : Dim) (idx : List Nat)
    (hnd : v.dims.labels.Nodup) (hd : d ∈ v.dims.labels)
    (hlen : v.data.length = v.dims.volume)
    (hsorted : idx.Pairwise (· < ·))
    (hrange : ∀ i ∈ idx, i ≤ v.dims.extOf d) :
    split v d [] = [v]
    ∧ ((split v d idx).map (fun w => w.dims.extOf d)).sum = v.dims.extOf d
    ∧ concatList d (split v d idx) = Except.ok v := by
  refine ⟨rfl, ?_, ?_⟩
  · cases idx with
    | nil =>
      rw [show split v d [] = [v] from rfl, List.map_cons, List.map_nil,
        List.sum_cons, List.sum_nil]
      omega
    | cons c rest =>
      have hc : c ≤ v.dims.extOf d := hrange c (List.mem_cons_self _ _)
      rw [split_eq_chops, List.map_cons, List.sum_cons,
        chops_extent_sum v d hd rest c (chain_le_of_pairwise c rest hsorted)
          (fun i hi => hrange i (List.mem_cons_of_mem _ hi)),
        sliceRange_dims, Nat.sub_zero, v.dims.extOf_resize_self _ _ hd]
      omega
  · cases idx with
    | nil =>
      rfl
    | cons c rest =>
      have hc : c ≤ v.dims.extOf d := hrange c (List.mem_cons_self _ _)
      rw [split_eq_chops]
      show (chops v d c rest).foldlM (fun acc x => concatenate acc x d)
          (sliceRange v d 0 c) = Except.ok v
      rw [concat_chops v d hnd hd hlen rest c
        (chain_le_of_pairwise c rest hsorted)
        (fun i hi => hrange i (List.mem_cons_of_mem _ hi)) hc,
        slice_full v d hnd]

theorem concatSplitRoundtripWitness :
    ([1, 3] : List Nat).Pairwise (· < ·)
    ∧ (∀ i ∈ ([1, 3] : List Nat),
        i ≤ Dimensions.extOf ⟨[(Dim.X, 4)]⟩ Dim.X)
    ∧ concatList Dim.X (split
        (⟨Tag.doubleT, ⟨0, 0⟩, "", ⟨[(Dim.X, 4)]⟩, [1, 2, 3, 4]⟩ : Variable)
        Dim.X [1, 3])
      = Except.ok ⟨Tag.doubleT, ⟨0, 0⟩, "", ⟨[(Dim.X, 4)]⟩, [1, 2, 3, 4]⟩ :=
  ⟨by decide, by decide,
   (concatSplitRoundtrip
      ⟨Tag.doubleT, ⟨0, 0⟩, "", ⟨[(Dim.X, 4)]⟩, [1, 2, 3, 4]⟩
      Dim.X [1, 3] (by decide) (by decide) rfl (by decide) (by decide)).2.2⟩

/-- The axis-presence check and the discounted-rank check of concatenate
together force every label of the second operand to be dim or a label of
the first: the non-dim labels of the first are among those of the second,
and both sides have the same number of non-dim labels. -/
theorem concat_labels_subset (D1 D2 : Dimensions) (d : Dim)
    (hnd1 : D1.labels.Nodup) (hnd2 : D2.labels.Nodup)
    (hdok : concatDimsOk D1 D2 d)
    (hrank : rankWithout D1 d = rankWithout D2 d) :
    ∀ l ∈ D2.labels, l = d ∨ l ∈ D1.labels := by
  classical
  have hcard : ∀ D : Dimensions, D.labels.Nodup →
      (D.labels.toFinset.erase d).card = rankWithout D d := by
    intro D hnd
    have hll : D.labels.length = D.dims.length := List.length_map _ _
    by_cases hdm : d ∈ D.labels
    · rw [Finset.card_erase_of_mem (List.mem_toFinset.mpr hdm),
        List.toFinset_card_of_nodup hnd]
      unfold rankWithout
      rw [if_pos hdm, hll]
    · rw [Finset.erase_eq_of_not_mem
        (fun h => hdm (List.mem_toFinset.mp h)),
        List.toFinset_card_of_nodup hnd]
      unfold rankWithout
      rw [if_neg hdm, Nat.sub_zero, hll]
  have hsub : D1.labels.toFinset.erase d ⊆ D2.labels.toFinset.erase d := by
    intro l hl
    rw [Finset.mem_erase] at hl
    rw [Finset.mem_erase]
    exact ⟨hl.1, List.mem_toFinset.mpr
      (hdok l (List.mem_toFinset.mp hl.2) hl.1)⟩
  have heq : D1.labels.toFinset.erase d = D2.labels.toFinset.erase d := by
    apply Finset.eq_of_subset_of_card_le hsub
    rw [hcard D1 hnd1, hcard D2 hnd2, hrank]
  intro l hl
  by_cases hld : l = d
  · exact Or.inl hld
  · right
    have : l ∈ D2.labels.toFinset.erase d :=
      Finset.mem_erase.mpr ⟨hld, List.mem_toFinset.mpr hl⟩
    rw [← heq, Finset.mem_erase] at this
    exact List.mem_toFinset.mp this.2

set_option maxHeartbeats 1000000 in
/-- C3: concatenate raises unless the element-kind tags, units, names and
the extents on every dense axis other than dim all match; when it
succeeds, the result holds a copy of the first operand on the
[0, extent1) range of dim and a copy of the second operand on the
[extent1, extent1 + extent2) range, where extent1 and extent2 are the
operands' extents along dim (1 when dim is absent). -/
theorem concatenateSpec (a1 a2 : Variable) (d : Dim) (out : Variable)
    (hnd1 : a1.dims.labels.Nodup) (hnd2 : a2.dims.labels.Nodup)
    (hok : concatenate a1 a2 d = Except.ok out) :
    a1.tag = a2.tag ∧ a1.unit = a2.unit ∧ a1.name = a2.name
    ∧ (∀ l ∈ a1.dims.labels, ¬ l = d → a2.dims.extOf l = a1.dims.extOf l)
    ∧ ∀ p, out.dims.validP p →
        (p d < concatExtent a1.dims d → out.atP p = a1.atP p)
        ∧ (concatExtent a1.dims d ≤ p d →
            out.atP p = a2.atP (updP p d (p d - concatExtent a1.dims d))) := by
  unfold concatenate at hok
  by_cases h1 : a1.tag ≠ a2.tag
  · rw [if_pos h1] at hok
    exact Except.noConfusion hok
  rw [if_neg h1] at hok
  by_cases h2 : a1.unit ≠ a2.unit
  · rw [if_pos h2] at hok
    exact Except.noConfusion hok
  rw [if_neg h2] at hok
  by_cases h3 : a1.name ≠ a2.name
  · rw [if_pos h3] at hok
    exact Except.noConfusion hok
  rw [if_neg h3] at hok
  by_cases h4 : ¬ concatDimsOk a1.dims a2.dims d
  · rw [if_pos h4] at hok
    exact Except.noConfusion hok
  rw [if_neg h4] at hok
  by_cases h5 : ¬ concatExtentsOk a1.dims a2.dims d
  · rw [if_pos h5] at hok
    exact Except.noConfusion hok
  rw [if_neg h5] at hok
  by_cases h6 : rankWithout a1.dims d ≠ rankWithout a2.dims d
  · rw [if_pos h6] at hok
    exact Except.noConfusion hok
  rw [if_neg h6] at hok
  injection hok with hout
  subst hout
  have hdok : concatDimsOk a1.dims a2.dims d := not_not.mp h4
  have hrank : rankWithout a1.dims d = rankWithout a2.dims d := not_not.mp h6
  have hl2 := concat_labels_subset a1.dims a2.dims d hnd1 hnd2 hdok hrank
  have hRlab : ∀ l, l ∈ (concatResultDims a1.dims a2.dims d).labels
      ↔ (l ∈ a1.dims.labels ∨ l = d) := by
    intro l
    unfold concatResultDims
    by_cases hdm : d ∈ a1.dims.labels
    · rw [if_pos hdm, Dimensions.labels_resize]
      constructor
      · exact fun h => Or.inl h
      · intro h
        rcases h with h | h
        · exact h
        · rw [h]
          exact hdm
    · rw [if_neg hdm, Dimensions.labels_add, List.mem_append,
        List.mem_singleton]
  have hndR : (concatResultDims a1.dims a2.dims d).labels.Nodup := by
    unfold concatResultDims
    by_cases hdm : d ∈ a1.dims.labels
    · rw [if_pos hdm, Dimensions.labels_resize]
      exact hnd1
    · rw [if_neg hdm]
      exact a1.dims.nodup_labels_add d _ hnd1 hdm
  have hdR : d ∈ (concatResultDims a1.dims a2.dims d).labels :=
    (hRlab d).mpr (Or.inr rfl)
  have hextR : (concatResultDims a1.dims a2.dims d).extOf d
      = concatExtent a1.dims d + concatExtent a2.dims d := by
    unfold concatResultDims
    by_cases hdm : d ∈ a1.dims.labels
    · rw [if_pos hdm]
      exact a1.dims.extOf_resize_self d _ hdm
    · rw [if_neg hdm]
      exact a1.dims.extOf_add_self d _ hdm
  refine ⟨not_not.mp h1, not_not.mp h2, not_not.mp h3, not_not.mp h5, ?_⟩
  intro p hp
  have hpR : (concatResultDims a1.dims a2.dims d).validP p := hp
  have hpd : p d < concatExtent a1.dims d + concatExtent a2.dims d := by
    have := hpR d hdR
    rwa [hextR] at this
  have hndF : (concatFirst a1 a2 d).dims.labels.Nodup := hndR
  have hpF : (concatFirst a1 a2 d).dims.validP p := hpR
  have hdF : d ∈ (concatFirst a1 a2 d).dims.labels := hdR
  have hsub2 : ∀ l ∈ a2.dims.labels,
      l ∈ (concatFirst a1 a2 d).dims.labels := by
    intro l hl
    show l ∈ (concatResultDims a1.dims a2.dims d).labels
    rcases hl2 l hl with h | h
    · exact (hRlab l).mpr (Or.inr h)
    · exact (hRlab l).mpr (Or.inl h)
  have hcopy2 := copyDim_at (concatFirst a1 a2 d) a2 d
    (concatExtent a1.dims d) 0 (concatExtent a2.dims d) hndF hsub2 p hpF
  constructor
  · intro hplt
    show (copyDim (concatFirst a1 a2 d) a2 d (concatExtent a1.dims d) 0
        (concatExtent a2.dims d)).getD
        ((concatFirst a1 a2 d).dims.flatP p) 0 = a1.atP p
    rw [hcopy2, if_pos hdF,
      if_neg (show ¬ (concatExtent a1.dims d ≤ p d
        ∧ p d < concatExtent a1.dims d + (concatExtent a2.dims d - 0))
        from by omega)]
    have hsub1 : ∀ l ∈ a1.dims.labels,
        l ∈ (concatInit a1 a2 d).dims.labels := by
      intro l hl
      show l ∈ (concatResultDims a1.dims a2.dims d).labels
      exact (hRlab l).mpr (Or.inl hl)
    have hndI : (concatInit a1 a2 d).dims.labels.Nodup := hndR
    have hpI : (concatInit a1 a2 d).dims.validP p := hpR
    have hdI : d ∈ (concatInit a1 a2 d).dims.labels := hdR
    have hcopy1 := copyDim_at (concatInit a1 a2 d) a1 d 0 0
      (concatExtent a1.dims d) hndI hsub1 p hpI
    show (copyDim (concatInit a1 a2 d) a1 d 0 0
        (concatExtent a1.dims d)).getD
        ((concatInit a1 a2 d).dims.flatP p) 0 = a1.atP p
    rw [hcopy1, if_pos hdI, if_pos ⟨Nat.zero_le _, by omega⟩]
    apply a1.atP_congr
    intro l hl
    by_cases hld : l = d
    · rw [hld]
      show (if d = d then p d - 0 + 0 else p d) = p d
      rw [if_pos rfl]
      omega
    · show (if l = d then p d - 0 + 0 else p l) = p l
      rw [if_neg hld]
  · intro hge
    show (copyDim (concatFirst a1 a2 d) a2 d (concatExtent a1.dims d) 0
        (concatExtent a2.dims d)).getD
        ((concatFirst a1 a2 d).dims.flatP p) 0
      = a2.atP (updP p d (p d - concatExtent a1.dims d))
    rw [hcopy2, if_pos hdF, if_pos ⟨hge, by omega⟩]
    apply a2.atP_congr
    intro l hl
    by_cases hld : l = d
    · rw [hld, updP_self]
      show (if d = d then p d - concatExtent a1.dims d + 0 else p d)
        = p d - concatExtent a1.dims d
      rw [if_pos rfl]
      omega
    · rw [updP_ne _ _ _ _ hld]
      show (if l = d then p d - concatExtent a1.dims d + 0 else p l) = p l
      rw [if_neg hld]

theorem concatenateSpecWitness :
    concatenate ⟨Tag.doubleT, ⟨0, 0⟩, "", ⟨[(Dim.X, 2)]⟩, [1, 2]⟩
        ⟨Tag.doubleT, ⟨0, 0⟩, "", ⟨[(Dim.X, 1)]⟩, [5]⟩ Dim.X
      = Except.ok ⟨Tag.doubleT, ⟨0, 0⟩, "", ⟨[(Dim.X, 3)]⟩, [1, 2, 5]⟩
    ∧ Variable.atP ⟨Tag.doubleT, ⟨0, 0⟩, "", ⟨[(Dim.X, 3)]⟩, [1, 2, 5]⟩
        (fun _ => 2)
      = Variable.atP ⟨Tag.doubleT, ⟨0, 0⟩, "", ⟨[(Dim.X, 1)]⟩, [5]⟩
        (updP (fun _ => 2) Dim.X
          (2 - concatExtent (⟨[(Dim.X, 2)]⟩ : Dimensions) Dim.X)) :=
  ⟨rfl,
   ((concatenateSpec ⟨Tag.doubleT, ⟨0, 0⟩, "", ⟨[(Dim.X, 2)]⟩, [1, 2]⟩
        ⟨Tag.doubleT, ⟨0, 0⟩, "", ⟨[(Dim.X, 1)]⟩, [5]⟩ Dim.X
        ⟨Tag.doubleT, ⟨0, 0⟩, "", ⟨[(Dim.X, 3)]⟩, [1, 2, 5]⟩
        (by decide) (by decide) rfl).2.2.2.2
      (fun _ => 2) (by decide)).2 (by decide)⟩

/-- getD after a in-bounds set: the written index reads the new value,
every other index is unchanged. -/
theorem getD_set_accum (l : List ℚ) (i : Nat) (a : ℚ) (j : Nat)
    (hi : i < l.length) :
    (l.set i a).getD j 0 = if i = j then a else l.getD j 0 := by
  by_cases hij : i = j
  · rw [if_pos hij]
    subst hij
    rw [List.getD_eq_getElem _ _ (by rw [List.length_set]; exact hi)]
    exact List.getElem_set_self _
  · rw [if_neg hij]
    by_cases hj : j < l.length
    · rw [List.getD_eq_getElem _ _ (by rw [List.length_set]; exact hj),
        List.getD_eq_getElem _ _ hj]
      exact List.getElem_set_ne hij _
    · rw [List.getD_eq_default _ _ (by rw [List.length_set]; omega),
        List.getD_eq_default _ _ (by omega)]

/-- The accumulation fold of the reduction branch of applyOp preserves
the buffer length. -/
theorem foldl_accum_length (tgt : Nat → Nat) (src : Nat → ℚ)
    (init : List ℚ) (n : Nat) :
    ((List.range n).foldl (fun acc k =>
        acc.set (tgt k) (acc.getD (tgt k) 0 + src k)) init).length
      = init.length := by
  induction n with
  | zero => rfl
  | succ n ih =>
    rw [List.range_succ, List.foldl_append, List.foldl_cons, List.foldl_nil,
      List.length_set, ih]

/-- Evaluation of the accumulation fold: every cell ends at its initial
value plus the sum of the source elements routed to it. -/
theorem foldl_accum_getD (tgt : Nat → Nat) (src : Nat → ℚ)
    (init : List ℚ) :
    ∀ (n j : Nat), (∀ k, k < n → tgt k < init.length) →
    ((List.range n).foldl (fun acc k =>
        acc.set (tgt k) (acc.getD (tgt k) 0 + src k)) init).getD j 0
      = init.getD j 0 + ∑ k ∈ Finset.range n,
          (if tgt k = j then src k else 0) := by
  intro n
  induction n with
  | zero =>
    intro j _
    simp
  | succ n ih =>
    intro j hlt
    rw [List.range_succ, List.foldl_append, List.foldl_cons, List.foldl_nil]
    rw [getD_set_accum _ _ _ j (by
      rw [foldl_accum_length]
      exact hlt n (Nat.lt_succ_self n))]
    by_cases hj : tgt n = j
    · rw [if_pos hj, hj, ih j (fun k hk => hlt k (by omega)),
        Finset.sum_range_succ, if_pos hj, add_assoc]
    · rw [if_neg hj, ih j (fun k hk => hlt k (by omega)),
        Finset.sum_range_succ, if_neg hj, add_zero]

/-- The sum of a list of rationals as a Finset sum over its indices. -/
theorem sum_eq_range_getD (l : List ℚ) :
    l.sum = ∑ j ∈ Finset.range l.length, l.getD j 0 := by
  induction l with
  | nil => simp
  | cons a t ih =>
    rw [List.sum_cons, List.length_cons, Finset.sum_range_succ']
    simp only [List.getD_cons_succ, List.getD_cons_zero]
    rw [← ih]
    exact add_comm _ _

/-- Erasing a present label changes the Dimensions, so setDimensions
reallocates (and zero-initializes) the buffer of sum. -/
theorem erase_ne_self (D : Dimensions) (d : Dim) (hd : d ∈ D.labels) :
    D.eraseDim d ≠ D := by
  intro h
  have hdm : d ∈ (D.eraseDim d).labels := by
    rw [h]
    exact hd
  rw [Dimensions.mem_labels_erase] at hdm
  exact hdm.2 rfl

set_option maxHeartbeats 1600000 in
/-- C7: for a dense numeric Variable and a dimension it carries, sum
returns a Variable whose Dimensions are the input's with dim erased,
whose buffer is zero-initialized before the accumulation (setDimensions
reallocates because erasing a present label changes the Dimensions),
whose unit is the input's, whose elements are the sums of the input over
dim, and whose total equals the input's total. -/
theorem sumSpec (v : Variable) (d : Dim)
    (hnd : v.dims.labels.Nodup) (hd : d ∈ v.dims.labels)
    (harith : v.tag.isArith = true)
    (hlen : v.data.length = v.dims.volume) :
    (sumInit v d).data = List.replicate (v.dims.eraseDim d).volume 0
    ∧ ∃ s, sum v d = Except.ok s
      ∧ s.dims = v.dims.eraseDim d
      ∧ s.unit = v.unit
      ∧ (∀ p, (v.dims.eraseDim d).validP p →
          s.atP p = ∑ i ∈ Finset.range (v.dims.extOf d),
            v.atP (updP p d i))
      ∧ s.data.sum = v.data.sum := by
  have hslen_init : (sumInit v d).data
      = List.replicate (v.dims.eraseDim d).volume 0 := by
    show (if v.dims.eraseDim d = v.dims then v.data
        else List.replicate (v.dims.eraseDim d).volume 0) = _
    rw [if_neg (erase_ne_self v.dims d hd)]
  have hSnd : (v.dims.eraseDim d).labels.Nodup :=
    v.dims.nodup_labels_erase d hnd
  have hSvalid : ∀ k, k < v.dims.volume →
      (v.dims.eraseDim d).validP (v.dims.point k) := by
    intro k hk l hl
    rw [Dimensions.mem_labels_erase] at hl
    rw [v.dims.extOf_erase_ne d l hl.2]
    exact v.dims.validP_point k hk l hl.1
  have hcont : ¬ (sumInit v d).dims.containsDims v.dims := by
    show ¬ (v.dims.eraseDim d).containsDims v.dims
    intro h
    obtain ⟨q, hq, hq1⟩ := List.mem_map.mp hd
    have hmem := (h q hq).1
    rw [hq1, Dimensions.mem_labels_erase] at hmem
    exact hmem.2 rfl
  have happ : applyOp (fun a b => a + b) (sumInit v d) v
      = .ok ((List.range v.dims.volume).foldl (fun acc k =>
          acc.set ((v.dims.eraseDim d).flatP (v.dims.point k))
            (acc.getD ((v.dims.eraseDim d).flatP (v.dims.point k)) 0
              + v.data.getD k 0))
          (List.replicate (v.dims.eraseDim d).volume 0)) := by
    unfold applyOp
    rw [if_neg (fun h => h rfl),
      if_pos (show (sumInit v d).tag.isArith = true from harith),
      if_neg hcont, hslen_init]
    rfl
  have htgtlt : ∀ k, k < v.dims.volume →
      (v.dims.eraseDim d).flatP (v.dims.point k)
        < (List.replicate (v.dims.eraseDim d).volume (0 : ℚ)).length := by
    intro k hk
    rw [List.length_replicate]
    exact (v.dims.eraseDim d).flatP_lt hSnd _ (hSvalid k hk)
  refine ⟨hslen_init, ⟨{ sumInit v d with
    data := (List.range v.dims.volume).foldl (fun acc k =>
      acc.set ((v.dims.eraseDim d).flatP (v.dims.point k))
        (acc.getD ((v.dims.eraseDim d).flatP (v.dims.point k)) 0
          + v.data.getD k 0))
      (List.replicate (v.dims.eraseDim d).volume 0) }, ?_, rfl, rfl,
    ?_, ?_⟩⟩
  · show (match applyOp (fun a b => a + b) (sumInit v d) v with
      | .ok dta => Except.ok { sumInit v d with data := dta }
      | .error e => Except.error e) = _
    rw [happ]
  · intro p hp
    have hupdP : ∀ i, i < v.dims.extOf d → v.dims.validP (updP p d i) := by
      intro i hi l hl
      by_cases hld : l = d
      · rw [hld, updP_self]
        exact hld ▸ hi
      · rw [updP_ne _ _ _ _ hld]
        have hlS : l ∈ (v.dims.eraseDim d).labels :=
          (Dimensions.mem_labels_erase _ _ _).mpr ⟨hl, hld⟩
        have := hp l hlS
        rwa [v.dims.extOf_erase_ne d l hld] at this
    have hjlt : (v.dims.eraseDim d).flatP p < (v.dims.eraseDim d).volume :=
      (v.dims.eraseDim d).flatP_lt hSnd p hp
    show ((List.range v.dims.volume).foldl (fun acc k =>
        acc.set ((v.dims.eraseDim d).flatP (v.dims.point k))
          (acc.getD ((v.dims.eraseDim d).flatP (v.dims.point k)) 0
            + v.data.getD k 0))
        (List.replicate (v.dims.eraseDim d).volume 0)).getD
        ((v.dims.eraseDim d).flatP p) 0 = _
    rw [foldl_accum_getD _ _ _ v.dims.volume ((v.dims.eraseDim d).flatP p)
      htgtlt]
    rw [show (List.replicate (v.dims.eraseDim d).volume (0 : ℚ)).getD
        ((v.dims.eraseDim d).flatP p) 0 = 0 from by
      rw [List.getD_eq_getElem _ _ (by simpa using hjlt)]
      simp]
    rw [zero_add, ← Finset.sum_filter]
    apply Finset.sum_nbij' (fun k => v.dims.point k d)
      (fun i => v.dims.flatP (updP p d i))
    · intro k hk
      rw [Finset.mem_filter, Finset.mem_range] at hk
      rw [Finset.mem_range]
      exact v.dims.validP_point k hk.1 d hd
    · intro i hi
      rw [Finset.mem_range] at hi
      rw [Finset.mem_filter, Finset.mem_range]
      refine ⟨v.dims.flatP_lt hnd _ (hupdP i hi), ?_⟩
      apply (v.dims.eraseDim d).flatP_congr
      intro l hl
      rw [Dimensions.mem_labels_erase] at hl
      rw [v.dims.point_flatP hnd _ (hupdP i hi) l hl.1,
        updP_ne _ _ _ _ hl.2]
    · intro k hk
      rw [Finset.mem_filter, Finset.mem_range] at hk
      rw [show v.dims.flatP (updP p d (v.dims.point k d))
          = v.dims.flatP (v.dims.point k) from
        v.dims.flatP_congr _ _ (by
          intro l hl
          by_cases hld : l = d
          · rw [hld, updP_self]
          · rw [updP_ne _ _ _ _ hld]
            have hlS : l ∈ (v.dims.eraseDim d).labels :=
              (Dimensions.mem_labels_erase _ _ _).mpr ⟨hl, hld⟩
            exact ((v.dims.eraseDim d).point_inj hSnd _ _
              (hSvalid k hk.1) hp hk.2 l hlS).symm)]
      exact v.dims.flatP_point hnd k hk.1
    · intro i hi
      rw [Finset.mem_range] at hi
      rw [v.dims.point_flatP hnd _ (hupdP i hi) d hd, updP_self]
    · intro k hk
      rw [Finset.mem_filter, Finset.mem_range] at hk
      rw [show v.atP (updP p d (v.dims.point k d)) = v.atP (v.dims.point k)
        from v.atP_congr _ _ (by
          intro l hl
          by_cases hld : l = d
          · rw [hld, updP_self]
          · rw [updP_ne _ _ _ _ hld]
            have hlS : l ∈ (v.dims.eraseDim d).labels :=
              (Dimensions.mem_labels_erase _ _ _).mpr ⟨hl, hld⟩
            exact ((v.dims.eraseDim d).point_inj hSnd _ _
              (hSvalid k hk.1) hp hk.2 l hlS).symm)]
      show v.data.getD k 0 = v.data.getD (v.dims.flatP (v.dims.point k)) 0
      rw [v.dims.flatP_point hnd k hk.1]
  · show ((List.range v.dims.volume).foldl (fun acc k =>
        acc.set ((v.dims.eraseDim d).flatP (v.dims.point k))
          (acc.getD ((v.dims.eraseDim d).flatP (v.dims.point k)) 0
            + v.data.getD k 0))
        (List.replicate (v.dims.eraseDim d).volume 0)).sum = v.data.sum
    rw [sum_eq_range_getD, foldl_accum_length, List.length_replicate]
    have hterm : ∀ j ∈ Finset.range (v.dims.eraseDim d).volume,
        ((List.range v.dims.volume).foldl (fun acc k =>
          acc.set ((v.dims.eraseDim d).flatP (v.dims.point k))
            (acc.getD ((v.dims.eraseDim d).flatP (v.dims.point k)) 0
              + v.data.getD k 0))
          (List.replicate (v.dims.eraseDim d).volume 0)).getD j 0
        = ∑ k ∈ Finset.range v.dims.volume,
            (if (v.dims.eraseDim d).flatP (v.dims.point k) = j
              then v.data.getD k 0 else 0) := by
      intro j hj
      rw [Finset.mem_range] at hj
      rw [foldl_accum_getD _ _ _ v.dims.volume j htgtlt]
      rw [show (List.replicate (v.dims.eraseDim d).volume (0 : ℚ)).getD
          j 0 = 0 from by
        rw [List.getD_eq_getElem _ _ (by simpa using hj)]
        simp]
      rw [zero_add]
    have hinner : ∀ k ∈ Finset.range v.dims.volume,
        (∑ j ∈ Finset.range (v.dims.eraseDim d).volume,
          if (v.dims.eraseDim d).flatP (v.dims.point k) = j
            then v.data.getD k 0 else 0) = v.data.getD k 0 := by
      intro k hk
      rw [Finset.mem_range] at hk
      rw [Finset.sum_ite_eq (Finset.range (v.dims.eraseDim d).volume)
        ((v.dims.eraseDim d).flatP (v.dims.point k))
        (fun j => v.data.getD k 0)]
      rw [if_pos (Finset.mem_range.mpr
        ((v.dims.eraseDim d).flatP_lt hSnd _ (hSvalid k hk)))]
    rw [Finset.sum_congr rfl hterm, Finset.sum_comm,
      Finset.sum_congr rfl hinner, sum_eq_range_getD v.data, hlen]

theorem sumSpecWitness :
    (sumInit (⟨Tag.doubleT, ⟨0, 0⟩, "", ⟨[(Dim.X, 2), (Dim.Y, 2)]⟩,
        [1, 2, 3, 4]⟩ : Variable) Dim.X).data
      = List.replicate
          (Dimensions.eraseDim ⟨[(Dim.X, 2), (Dim.Y, 2)]⟩ Dim.X).volume 0
    ∧ ∃ s, sum (⟨Tag.doubleT, ⟨0, 0⟩, "", ⟨[(Dim.X, 2), (Dim.Y, 2)]⟩,
          [1, 2, 3, 4]⟩ : Variable) Dim.X = Except.ok s
      ∧ s.dims = Dimensions.eraseDim ⟨[(Dim.X, 2), (Dim.Y, 2)]⟩ Dim.X
      ∧ s.unit = ⟨0, 0⟩
      ∧ (∀ p, (Dimensions.eraseDim ⟨[(Dim.X, 2), (Dim.Y, 2)]⟩
            Dim.X).validP p →
          s.atP p = ∑ i ∈ Finset.range
              (Dimensions.extOf ⟨[(Dim.X, 2), (Dim.Y, 2)]⟩ Dim.X),
            Variable.atP ⟨Tag.doubleT, ⟨0, 0⟩, "",
              ⟨[(Dim.X, 2), (Dim.Y, 2)]⟩, [1, 2, 3, 4]⟩ (updP p Dim.X i))
      ∧ s.data.sum
        = (List.sum [1, 2, 3, 4] : ℚ) :=
  sumSpec ⟨Tag.doubleT, ⟨0, 0⟩, "", ⟨[(Dim.X, 2), (Dim.Y, 2)]⟩,
      [1, 2, 3, 4]⟩ Dim.X (by decide) (by decide) rfl rfl

end Scipp
